import Mathlib

/-!
# Verification of the DM2_FRONTEND backup/restore engine and report aggregation

This file gives a shallow embedding, in Lean 4, of the core logic of the
personal-finance web client:

* the Reports page aggregation helpers (`sum`, `avg`, `mom`, `movingAvg`,
  `categoriesSorted`, `catTop`, `anomalies`) from the reports source file, and
* the Settings page backup engine (`handleFile` staging, `downloadJson`
  export, `runImport` bulk replace) from the settings source file.

Modelling conventions:

* JavaScript numbers are modelled as exact rationals (`ℚ`); `x.toFixed(2)`
  becomes exact decimal rounding (round half toward `+∞`, picking the larger
  candidate on a tie, as the ECMAScript spec of `toFixed` demands).
* Numeric document fields that may be absent are `Option ℚ`; the JavaScript
  coercion `Number(v || 0)` becomes `orZero` (absent and `0` both map to `0`).
* `Array.prototype.sort` is stable (ES2019); a stable sort against the
  comparator `(a, b) => b.v - a.v` is embedded as `List.insertionSort` with
  the total preorder `b.2 ≤ a.2`, which is itself stable.
* The asynchronous workflow of `runImport` is embedded as a list of `Step`s,
  one per `await` in the source; a step holds the API calls issued by that
  await (several for a `Promise.all` batch) and the synchronous progress
  events emitted after it succeeds.  A rejected call aborts the remaining
  steps (the enclosing `try`/`catch`).
-/

namespace DM2

/-! ## Report aggregation (Reports page) -/

/-- Source: `const sum = (arr) => arr.reduce((s, x) => s + x, 0)`. -/
def sum (arr : List ℚ) : ℚ := arr.foldl (fun s x => s + x) 0

/-- Source: `const avg = (arr) => (arr.length ? sum(arr) / arr.length : 0)`. -/
def avg (arr : List ℚ) : ℚ := if arr.length = 0 then 0 else sum arr / arr.length

/-- Exact-rational model of `Number(x.toFixed(2))`: round to the nearest
multiple of `1/100`, taking the larger candidate on a tie. -/
def toFixed2 (q : ℚ) : ℚ := (⌊q * 100 + 1 / 2⌋ : ℤ) / 100

/-- Source (`mom` memo): month-over-month change over the full, unwindowed
monthly series; `null` when fewer than two months exist or the previous
month's total is `0`. -/
def mom (vals : List ℚ) : Option ℚ :=
  if vals.length < 2 then none
  else
    let last := vals.getD (vals.length - 1) 0
    let prev := vals.getD (vals.length - 2) 0
    if prev = 0 then none else some ((last - prev) / prev * 100)

/-- Source (`movingAvg` memo): `[]` when `!maWindow || maWindow <= 1`;
otherwise maps index `i` to `null` when `i + 1 < maWindow`, else to
`Number((sum(arr.slice(i - maWindow + 1, i + 1)) / maWindow).toFixed(2))`. -/
def movingAvg (maWindow : ℕ) (vals : List ℚ) : List (Option ℚ) :=
  if maWindow ≤ 1 then []
  else
    vals.mapIdx fun i _ =>
      if i + 1 < maWindow then none
      else some (toFixed2 (sum ((vals.drop (i + 1 - maWindow)).take maWindow) / maWindow))

/-- Source (lines 581–587): the trailing window selected by `monthsWindow`
(`monthsWindow && monthsWindow > 0 ? Math.min(monthsWindow, L) : L`). -/
def windowSize (monthsWindow : ℕ) (len : ℕ) : ℕ :=
  if 0 < monthsWindow then min monthsWindow len else len

/-- Source: `monthlyValuesAll.slice(-windowSize)`. -/
def windowedVals (monthsWindow : ℕ) (vals : List ℚ) : List ℚ :=
  vals.drop (vals.length - windowSize monthsWindow vals.length)

/-- A category entry `{ k, v }` of the report summary. -/
abbrev Cat : Type := String × ℚ

/-- The total preorder induced by the comparator
`(a, b) => Number(b.v || 0) - Number(a.v || 0)`: `a` sorts no later than `b`
iff `b.2 ≤ a.2` (descending by amount). -/
def catLe (a b : Cat) : Prop := b.2 ≤ a.2

instance : DecidableRel catLe := fun a b => inferInstanceAs (Decidable (b.2 ≤ a.2))

instance : IsTotal Cat catLe := ⟨fun a b => le_total b.2 a.2⟩

instance : IsTrans Cat catLe := ⟨fun _ _ _ h h' => le_trans h' h⟩

/-- Source: `categoriesRaw.slice().sort((a, b) => Number(b.v||0) - Number(a.v||0))`
— a stable descending sort, embedded as insertion sort for `catLe`. -/
def categoriesSorted (cats : List Cat) : List Cat := cats.insertionSort catLe

/-- Source (`catTop` memo): take the first `catLimit` sorted entries and
append `{ k: "Other", v: otherSum }` iff `otherSum > 0`. -/
def catTop (catLimit : ℕ) (cats : List Cat) : List Cat :=
  let top := (categoriesSorted cats).take catLimit
  let rest := (categoriesSorted cats).drop catLimit
  let otherSum := sum (rest.map (fun c => c.2))
  if 0 < otherSum then top ++ [("Other", otherSum)] else top

/-- Source (`anomalies` memo): with `a` the mean of the full monthly series,
`[]` when `!a`, else the months with `value > a * 1.3 || value < a * 0.7`.
The parallel `monthlyLabelsAll`/`monthlyValuesAll` arrays are modelled as one
list of (label, value) pairs. -/
def anomalies (monthly : List (String × ℚ)) : List (String × ℚ) :=
  let a := avg (monthly.map (fun m => m.2))
  if a = 0 then []
  else monthly.filter fun m => decide (a * (13 / 10) < m.2) || decide (m.2 < a * (7 / 10))

example : mom [0, 50] = none := by norm_num [mom]
example : mom [50, 0] = some (-100) := by norm_num [mom]
example : mom [100, 150] = some 50 := by norm_num [mom]
example : movingAvg 3 [100, 200, 300, 400] = [none, none, some 200, some 300] := by
  simp [movingAvg, List.mapIdx_eq_enum_map, List.enum, List.enumFrom, Function.uncurry, sum]
  norm_num [toFixed2]
example : movingAvg 1 [100] = [] := by norm_num [movingAvg]
example : movingAvg 3 [0, 0, 1] = [none, none, some (33 / 100)] := by
  simp [movingAvg, List.mapIdx_eq_enum_map, List.enum, List.enumFrom, Function.uncurry, sum]
  norm_num [toFixed2]
example :
    catTop 2 [("A", 50), ("B", 30), ("C", 10), ("D", 5), ("E", 5)] =
      [("A", 50), ("B", 30), ("Other", 20)] := by
  norm_num [catTop, categoriesSorted, List.insertionSort, List.orderedInsert, catLe, sum]
example :
    catTop 5 [("A", 50), ("B", 30), ("C", 10), ("D", 5), ("E", 5)] =
      [("A", 50), ("B", 30), ("C", 10), ("D", 5), ("E", 5)] := by
  norm_num [catTop, categoriesSorted, List.insertionSort, List.orderedInsert, catLe, sum]
example : catTop 1 [("A", 50), ("B", -10)] = [("A", 50)] := by
  norm_num [catTop, categoriesSorted, List.insertionSort, List.orderedInsert, catLe, sum]
example : anomalies [("a", 0), ("b", 0)] = [] := by norm_num [anomalies, avg, sum]
example :
    ("Apr", (1000 : ℚ)) ∈ anomalies [("Jan", 100), ("Feb", 100), ("Mar", 100), ("Apr", 1000)] := by
  norm_num [anomalies, avg, sum, List.filter]

/-! ## The API surface (Settings page collaborator)

One request constructor per `api.*` method used by the settings source file;
a call value records the request that was issued, not its response. -/

/-- An HTTP request issued through the `api` client. -/
inductive ApiCall
  | getExpenses
  | getBudgets
  | getSavings
  | deleteExpense (id : ℕ)
  | deleteBudget (id : ℕ)
  | deleteSaving (id : ℕ)
  | createExpense (date category description : String) (amount : ℚ)
  | createBudget (category : String) (limit : ℚ)
  | createSaving (name : String) (target : ℚ)
  | updateSaving (id : ℕ) (current : ℚ)
  deriving DecidableEq, Repr

/-- A request that mutates server state (anything but the three list reads). -/
def isMutation : ApiCall → Bool
  | .getExpenses | .getBudgets | .getSavings => false
  | _ => true

/-! ## Backup documents -/

/-- `Number(v || 0)`: an absent numeric field coerces to `0`. -/
def orZero (x : Option ℚ) : ℚ := x.getD 0

/-- An expense entry of a backup document (recognized fields only; the import
maps exactly `date`/`category`/`description`/`amount`). -/
structure ExpenseDoc where
  date : String
  category : String
  description : String
  amount : Option ℚ
  deriving DecidableEq, Repr

/-- A budget entry of a backup document (`category`/`limit`). -/
structure BudgetDoc where
  category : String
  limit : Option ℚ
  deriving DecidableEq, Repr

/-- A saving entry of a backup document (`name`/`target`/`current`). -/
structure SavingDoc where
  name : String
  target : Option ℚ
  current : Option ℚ
  deriving DecidableEq, Repr

/-- The `BackupPayload` type of the settings source file: three optional
arrays (the `meta` block is ignored by the import path). -/
structure BackupPayload where
  expenses : Option (List ExpenseDoc)
  budgets : Option (List BudgetDoc)
  savings : Option (List SavingDoc)
  deriving DecidableEq, Repr

/-- `payload.expenses || []`. -/
def docExpenses (p : BackupPayload) : List ExpenseDoc := p.expenses.getD []

/-- `payload.budgets || []`. -/
def docBudgets (p : BackupPayload) : List BudgetDoc := p.budgets.getD []

/-- `payload.savings || []`. -/
def docSavings (p : BackupPayload) : List SavingDoc := p.savings.getD []

/-- `(payload.expenses?.length || 0) + (payload.budgets?.length || 0) +
(payload.savings?.length || 0)` — the progress total of step 3. -/
def docTotal (p : BackupPayload) : ℕ :=
  (docExpenses p).length + (docBudgets p).length + (docSavings p).length

/-! ## Staging an uploaded document (`handleFile`)

An uploaded file is parsed with `JSON.parse`; the parse result is a JSON
value.  `handleFile` computes
`typeof json === "object" && (Array.isArray(json.expenses) || …)` and either
stages the document as the pending import or rejects it.  JavaScript member
access on `null` throws a `TypeError`, which the surrounding `catch` turns
into an error notice; `typeof null === "object"`, so this path is live. -/

/-- A JSON value, as produced by `JSON.parse`. -/
inductive JVal
  | null
  | bool (b : Bool)
  | num (q : ℚ)
  | str (s : String)
  | arr (elems : List JVal)
  | obj (fields : List (String × JVal))

/-- `typeof v === "object"` (true for `null`, arrays and objects). -/
def typeofObject : JVal → Bool
  | .null | .arr _ | .obj _ => true
  | _ => false

/-- JavaScript member access `v[k]` on a non-null value: a field of an
object, `undefined` (here `none`) otherwise. -/
def getField (j : JVal) (k : String) : Option JVal :=
  match j with
  | .obj fields => (fields.find? fun f => f.1 == k).map (fun f => f.2)
  | _ => none

/-- `Array.isArray(v[k])`. -/
def isArrayField (j : JVal) (k : String) : Bool :=
  match getField j k with
  | some (.arr _) => true
  | _ => false

/-- `j` is a JSON object. -/
def isJObj : JVal → Prop := fun j => ∃ fields, j = .obj fields

/-- Result of the staging step: either a pending import or a rejection with
the notice text shown to the user. -/
inductive StageOutcome
  | staged (payload : JVal) (name : String)
  | rejected (info : String)

/-- The `TypeError` raised by `json.expenses` when `json` is `null`. -/
def nullAccessMsg : String := "Cannot read properties of null (reading 'expenses')"

/-- Source (`handleFile`, lines 241–261): parse, validate, stage.  The input
is the result of `JSON.parse(text)` (`.error msg` when parsing threw a
`SyntaxError` with message `msg`).  The second component lists the API calls
made while staging — the source body contains none. -/
def handleFile (name : String) (parsed : Except String JVal) :
    StageOutcome × List ApiCall :=
  match parsed with
  | .error msg => (.rejected msg, [])
  | .ok j =>
    if typeofObject j then
      match j with
      | .null => (.rejected nullAccessMsg, [])
      | _ =>
        if isArrayField j "expenses" || isArrayField j "budgets" || isArrayField j "savings" then
          (.staged j name, [])
        else
          (.rejected "Invalid backup file.", [])
    else (.rejected "Invalid backup file.", [])

/-! ## JSON export (`downloadJson`) -/

/-- A live expense record, as returned by `api.getExpenses`. -/
structure Expense where
  id : ℕ
  date : String
  category : String
  description : String
  amount : ℚ
  deriving DecidableEq, Repr

/-- A live budget record. -/
structure Budget where
  id : ℕ
  category : String
  limit : ℚ
  spent : ℚ
  deriving DecidableEq, Repr

/-- A live saving record. -/
structure Saving where
  id : ℕ
  name : String
  target : ℚ
  current : ℚ
  deriving DecidableEq, Repr

/-- The `meta` block written into a JSON backup. -/
structure BackupMeta where
  exportedAt : String
  currency : String
  dateFmt : String
  numFmt : String
  firstDay : String
  app : String
  deriving DecidableEq, Repr

/-- The document serialized by `downloadJson`. -/
structure ExportDoc where
  expenses : List Expense
  budgets : List Budget
  savings : List Saving
  meta : BackupMeta
  deriving DecidableEq, Repr

/-- Responses of the three reads issued by an export (an `Error` message when
the fetch rejects). -/
structure ExportEnv where
  expensesRes : Except String (List Expense)
  budgetsRes : Except String (List Budget)
  savingsRes : Except String (List Saving)

/-- Source (`downloadJson`, lines 122–153): three reads via `Promise.all`;
on success serialize the payload and offer it as a download, on any rejection
show the error message.  Returns (calls issued, file produced, notice).
`Promise.all` rejects with the first rejection; the three fetches race, so
the canonical model surfaces the first failing response in field order. -/
def downloadJson (env : ExportEnv)
    (exportedAt currency dateFmt numFmt firstDay : String) :
    List ApiCall × Option ExportDoc × String :=
  match env.expensesRes, env.budgetsRes, env.savingsRes with
  | .ok es, .ok bs, .ok ss =>
    ([.getExpenses, .getBudgets, .getSavings],
      some ⟨es, bs, ss, ⟨exportedAt, currency, dateFmt, numFmt, firstDay, "FinancePro"⟩⟩,
      "Backup downloaded.")
  | .error m, _, _ => ([.getExpenses, .getBudgets, .getSavings], none, m)
  | _, .error m, _ => ([.getExpenses, .getBudgets, .getSavings], none, m)
  | _, _, .error m => ([.getExpenses, .getBudgets, .getSavings], none, m)

/-! ## Applying a pending import (`runImport`)

The body of `runImport` is a linear async workflow.  We embed it as a list of
`Step`s, one per `await` of the source: the step's `calls` are the API
requests issued by that await (several for a `Promise.all` batch), its
`after` are the synchronous `setImportProgress` events emitted once it
succeeds.  A rejected call aborts every later step; the calls of the
rejecting batch were already issued. -/

/-- An observable event of an import run. -/
inductive Event
  | call (c : ApiCall)
  | progress (step : String) (current total : ℕ)
  deriving DecidableEq, Repr

/-- One `await` of `runImport`. -/
structure Step where
  calls : List ApiCall
  after : List Event
  deriving Repr

/-- All events of a step, in order: its calls, then its progress updates. -/
def stepEvents (st : Step) : List Event := st.calls.map Event.call ++ st.after

/-- Events of a fully successful run of the given steps. -/
def eventsOfSteps (sts : List Step) : List Event := sts.flatMap stepEvents

/-- All API calls of the given steps. -/
def callsOfSteps (sts : List Step) : List ApiCall := sts.flatMap fun st => st.calls

/-- The calls among a list of events. -/
def callsOfEvents (evs : List Event) : List ApiCall :=
  evs.filterMap fun e => match e with | .call c => some c | _ => none

/-- `current > 0 && created?.id`: the follow-up `updateSaving` is issued with
id `i` exactly when the create returned an object with a truthy id `i` and
the coerced `current` is strictly positive. -/
def savingUpdateId (created : Option ℕ) (current : ℚ) : Option ℕ :=
  match created with
  | some i => if 0 < current ∧ i ≠ 0 then some i else none
  | none => none

/-- Steps of the expense loop: one `createExpense` per entry, each followed
by `done++; bump("Importing expenses")`. -/
def expenseSteps (total : ℕ) : List ExpenseDoc → ℕ → List Step
  | [], _ => []
  | e :: rest, done =>
    { calls := [.createExpense e.date e.category e.description (orZero e.amount)],
      after := [.progress "Importing expenses" (done + 1) total] }
      :: expenseSteps total rest (done + 1)

/-- Steps of the budget loop. -/
def budgetSteps (total : ℕ) : List BudgetDoc → ℕ → List Step
  | [], _ => []
  | b :: rest, done =>
    { calls := [.createBudget b.category (orZero b.limit)],
      after := [.progress "Importing budgets" (done + 1) total] }
      :: budgetSteps total rest (done + 1)

/-- Steps of the saving loop: `createSaving`, then — when the entry's coerced
`current` is positive and the create returned a truthy id — the dependent
`updateSaving`, then `done++; bump("Importing savings")`.  `ids k` is the id
the server assigned to the `k`-th created saving (`none`/`some 0` model a
missing or falsy `created?.id`). -/
def savingSteps (ids : ℕ → Option ℕ) (total : ℕ) :
    List SavingDoc → ℕ → ℕ → List Step
  | [], _, _ => []
  | s :: rest, k, done =>
    (match savingUpdateId (ids k) (orZero s.current) with
     | some i =>
       [{ calls := [.createSaving s.name (orZero s.target)], after := [] },
        { calls := [.updateSaving i (orZero s.current)],
          after := [.progress "Importing savings" (done + 1) total] }]
     | none =>
       [{ calls := [.createSaving s.name (orZero s.target)],
          after := [.progress "Importing savings" (done + 1) total] }])
      ++ savingSteps ids total rest (k + 1) (done + 1)

/-- Steps of the recreation phase (step 3 of the import): total computed
once, then the three sequential loops with their leading `bump` calls. -/
def restoreSteps (ids : ℕ → Option ℕ) (p : BackupPayload) : List Step :=
  let total := docTotal p
  { calls := [], after := [.progress "Importing expenses" 0 total] }
    :: expenseSteps total (docExpenses p) 0
    ++ ({ calls := [], after := [.progress "Importing budgets" (docExpenses p).length total] }
      :: budgetSteps total (docBudgets p) (docExpenses p).length)
    ++ ({ calls := [],
          after := [.progress "Importing savings"
            ((docExpenses p).length + (docBudgets p).length) total] }
      :: savingSteps ids total (docSavings p) 0
        ((docExpenses p).length + (docBudgets p).length))

/-- The environment of one import run: the current server records (by id),
the ids assigned to created savings, and the failure injection (`failAt n`
means the `n`-th API call of the run, 0-based, rejects with `failMsg`). -/
structure ImportEnv where
  existingExpenseIds : List ℕ
  existingBudgetIds : List ℕ
  existingSavingIds : List ℕ
  savingIds : ℕ → Option ℕ
  failAt : Option ℕ
  failMsg : String

/-- All steps of `runImport` after the confirmation: the `Promise.all` read,
the three concurrent per-category delete batches, then the sequential
recreation phase. -/
def importSteps (env : ImportEnv) (p : BackupPayload) : List Step :=
  { calls := [.getExpenses, .getBudgets, .getSavings], after := [] }
    :: { calls := env.existingExpenseIds.map ApiCall.deleteExpense, after := [] }
    :: { calls := env.existingBudgetIds.map ApiCall.deleteBudget, after := [] }
    :: { calls := env.existingSavingIds.map ApiCall.deleteSaving, after := [] }
    :: restoreSteps env.savingIds p

/-- Run a step list with failure injection: the step containing the `n`-th
call issues all of its calls (a `Promise.all` batch is already in flight),
emits none of its follow-up events, and aborts the remaining steps.  Returns
the emitted events and whether the run completed. -/
def runSteps : List Step → Option ℕ → List Event × Bool
  | [], _ => ([], true)
  | st :: rest, none =>
    let r := runSteps rest none
    (stepEvents st ++ r.1, r.2)
  | st :: rest, some n =>
    if n < st.calls.length then (st.calls.map Event.call, false)
    else
      let r := runSteps rest (some (n - st.calls.length))
      (stepEvents st ++ r.1, r.2)

/-- The observable outcome of `runImport`: emitted events, whether
`setPendingImport(null)` ran, and the final notice. -/
structure ImportOutcome where
  events : List Event
  pendingCleared : Bool
  info : String
  deriving Repr

/-- Source (`runImport`, lines 263–330).  Guards: no pending import, or the
user declining the `confirm` dialog, abort with no API traffic.  Otherwise
the whole step list runs with the environment's failure injection; on
success the pending import is cleared and `"Import completed."` reported, on
failure the pending import is kept and the rejection's message reported
verbatim.  (The fire-and-forget `refreshCounts()` read issued after success
is outside this model.) -/
def runImport (pending : Option BackupPayload) (confirmed : Bool)
    (env : ImportEnv) : ImportOutcome :=
  match pending with
  | none => ⟨[], false, ""⟩
  | some p =>
    if confirmed then
      let r := runSteps (importSteps env p) env.failAt
      if r.2 then ⟨.progress "Clearing existing" 0 1 :: r.1, true, "Import completed."⟩
      else ⟨.progress "Clearing existing" 0 1 :: r.1, false, env.failMsg⟩
    else ⟨[], false, ""⟩

/-! ## Claim theorems -/

/-- **C6**: Month-over-month change equals `(last - prev) / prev * 100` over
the two most recent entries of the monthly series (the source computes it
from `monthlyValuesAll`, the full unwindowed series), and it is defined only
when at least two months exist and `prev ≠ 0`; otherwise it is `none` (not
`0`, not an infinity).  `[0, 50]` is undefined, `[50, 0]` is `-100`,
`[100, 150]` is `+50`. -/
theorem mom_spec (vals : List ℚ) :
    (vals.length < 2 → mom vals = none) ∧
    (∀ xs a b, vals = xs ++ [a, b] →
      (a = 0 → mom vals = none) ∧
      (a ≠ 0 → mom vals = some ((b - a) / a * 100))) ∧
    mom [0, 50] = none ∧ mom [50, 0] = some (-100) ∧ mom [100, 150] = some 50 := by
  refine ⟨?_, ?_, by norm_num [mom], by norm_num [mom], by norm_num [mom]⟩
  · intro h
    unfold mom
    rw [if_pos h]
  · rintro xs a b rfl
    have hlen : (xs ++ [a, b]).length = xs.length + 2 := by simp
    have h2 : ¬ (xs ++ [a, b]).length < 2 := by omega
    have hb : (xs ++ [a, b]).getD ((xs ++ [a, b]).length - 1) 0 = b := by
      rw [hlen]
      have : xs.length + 2 - 1 = xs.length + 1 := by omega
      rw [this, List.getD_eq_getElem?_getD, List.getElem?_append_right (by omega)]
      simp
    have ha : (xs ++ [a, b]).getD ((xs ++ [a, b]).length - 2) 0 = a := by
      rw [hlen]
      have : xs.length + 2 - 2 = xs.length := by omega
      rw [this, List.getD_eq_getElem?_getD, List.getElem?_append_right (by omega)]
      simp
    constructor
    · intro h0
      unfold mom
      rw [if_neg h2]
      simp only [ha, hb]
      rw [if_pos h0]
    · intro h0
      unfold mom
      rw [if_neg h2]
      simp only [ha, hb]
      rw [if_neg h0]

/-- Witness for `mom_spec` at the concrete series `[50, 0]`. -/
theorem mom_spec_witness : mom ([] ++ [(50 : ℚ), 0]) = some ((0 - 50) / 50 * 100) :=
  ((mom_spec ([] ++ [50, 0])).2.1 [] 50 0 rfl).2 (by norm_num)

/-- **C9**: Anomaly detection flags exactly the months whose value exceeds
`1.3×` the mean of the full series or falls below `0.7×` it, and flags
nothing when the mean is zero.  `[100, 100, 100, 1000]` (mean `325`) flags
the `1000` month; an all-zero series flags nothing. -/
theorem anomalies_spec (monthly : List (String × ℚ)) :
    (avg (monthly.map (fun m => m.2)) = 0 → anomalies monthly = []) ∧
    (∀ m, m ∈ anomalies monthly ↔
      m ∈ monthly ∧ avg (monthly.map (fun x => x.2)) ≠ 0 ∧
        (avg (monthly.map (fun x => x.2)) * (13 / 10) < m.2 ∨
          m.2 < avg (monthly.map (fun x => x.2)) * (7 / 10))) ∧
    anomalies [("a", 0), ("b", 0)] = [] ∧
    ("Apr", (1000 : ℚ)) ∈ anomalies [("Jan", 100), ("Feb", 100), ("Mar", 100), ("Apr", 1000)] := by
  refine ⟨?_, ?_, by norm_num [anomalies, avg, sum],
    by norm_num [anomalies, avg, sum, List.filter]⟩
  · intro h
    unfold anomalies
    rw [if_pos h]
  · intro m
    unfold anomalies
    by_cases h : avg (monthly.map (fun x => x.2)) = 0
    · rw [if_pos h]
      simp [h]
    · rw [if_neg h]
      simp only [List.mem_filter, Bool.or_eq_true, decide_eq_true_eq]
      tauto

/-- Witness for `anomalies_spec`: the empty series has mean `0` and no
anomalies. -/
theorem anomalies_spec_witness : anomalies [] = [] :=
  (anomalies_spec []).1 (by norm_num [avg])

/-- **C7**: The JSON export issues exactly the three list reads (never a
mutation); if all three succeed it produces the full backup document and a
success notice, and if any fetch fails it produces no document at all and
surfaces that fetch's error message. -/
theorem downloadJson_spec (env : ExportEnv) (t c d n f : String) :
    (downloadJson env t c d n f).1 = [.getExpenses, .getBudgets, .getSavings] ∧
    (∀ call ∈ (downloadJson env t c d n f).1, isMutation call = false) ∧
    ((∃ doc, (downloadJson env t c d n f).2.1 = some doc) ↔
      (∃ es bs ss, env.expensesRes = .ok es ∧ env.budgetsRes = .ok bs ∧
        env.savingsRes = .ok ss)) ∧
    (∀ es bs ss, env.expensesRes = .ok es → env.budgetsRes = .ok bs →
      env.savingsRes = .ok ss →
      (downloadJson env t c d n f).2.1 = some ⟨es, bs, ss, ⟨t, c, d, n, f, "FinancePro"⟩⟩ ∧
      (downloadJson env t c d n f).2.2 = "Backup downloaded.") ∧
    ((¬ ∃ es bs ss, env.expensesRes = .ok es ∧ env.budgetsRes = .ok bs ∧
        env.savingsRes = .ok ss) →
      (downloadJson env t c d n f).2.1 = none ∧
      (env.expensesRes = .error (downloadJson env t c d n f).2.2 ∨
        env.budgetsRes = .error (downloadJson env t c d n f).2.2 ∨
        env.savingsRes = .error (downloadJson env t c d n f).2.2)) := by
  obtain ⟨er, br, sr⟩ := env
  rcases er with em | es <;> rcases br with bm | bs <;> rcases sr with sm | ss <;>
    simp [downloadJson, isMutation]

/-- Witness for `downloadJson_spec`: a failing expense fetch aborts the
export with no file. -/
theorem downloadJson_spec_witness :
    (downloadJson ⟨.error "Network error. Is the API running on 4000?", .ok [], .ok []⟩
        "t" "Rs." "YYYY-MM-DD" "1,234.56" "Mon").2.1 = none ∧
    ((⟨.error "Network error. Is the API running on 4000?", .ok [], .ok []⟩ :
        ExportEnv).expensesRes =
      .error (downloadJson ⟨.error "Network error. Is the API running on 4000?", .ok [], .ok []⟩
        "t" "Rs." "YYYY-MM-DD" "1,234.56" "Mon").2.2 ∨
      (⟨.error "Network error. Is the API running on 4000?", .ok [], .ok []⟩ :
        ExportEnv).budgetsRes =
      .error (downloadJson ⟨.error "Network error. Is the API running on 4000?", .ok [], .ok []⟩
        "t" "Rs." "YYYY-MM-DD" "1,234.56" "Mon").2.2 ∨
      (⟨.error "Network error. Is the API running on 4000?", .ok [], .ok []⟩ :
        ExportEnv).savingsRes =
      .error (downloadJson ⟨.error "Network error. Is the API running on 4000?", .ok [], .ok []⟩
        "t" "Rs." "YYYY-MM-DD" "1,234.56" "Mon").2.2) :=
  (downloadJson_spec ⟨.error "Network error. Is the API running on 4000?", .ok [], .ok []⟩
      "t" "Rs." "YYYY-MM-DD" "1,234.56" "Mon").2.2.2.2 (by simp)

/-- **C1**: Staging accepts a candidate document iff it parses as JSON, is a
JSON object, and at least one of its `expenses`/`budgets`/`savings` fields
is an array; every other document is rejected with an error notice before
any mutation; staging makes zero API calls either way; and an accepted
document only becomes the pending import — applying it is a separate step
(`runImport`) that does nothing without a pending document and an explicit
confirmation. -/
theorem handleFile_spec (name : String) (parsed : Except String JVal) :
    (handleFile name parsed).2 = [] ∧
    ((∃ j, (handleFile name parsed).1 = .staged j name) ↔
      (∃ j, parsed = .ok j ∧ isJObj j ∧
        (isArrayField j "expenses" = true ∨ isArrayField j "budgets" = true ∨
          isArrayField j "savings" = true))) ∧
    (∀ j nm, (handleFile name parsed).1 = .staged j nm → parsed = .ok j ∧ nm = name) ∧
    ((¬ ∃ j, (handleFile name parsed).1 = .staged j name) →
      ∃ msg, (handleFile name parsed).1 = .rejected msg) ∧
    (∀ p env, (runImport (some p) false env).events = [] ∧
      (runImport (some p) false env).pendingCleared = false) ∧
    (∀ env, (runImport none true env).events = []) := by
  have hobj : ∀ fields, handleFile name (.ok (.obj fields)) =
      if (isArrayField (.obj fields) "expenses" || isArrayField (.obj fields) "budgets" ||
          isArrayField (.obj fields) "savings") = true
      then (.staged (.obj fields) name, [])
      else (.rejected "Invalid backup file.", []) := fun _ => rfl
  refine ⟨?_, ?_, ?_, ?_, fun p env => by simp [runImport], fun env => by simp [runImport]⟩
  · rcases parsed with msg | j
    · rfl
    · rcases j with _ | b | q | s | elems | fields
      · rfl
      · rfl
      · rfl
      · rfl
      · rfl
      · by_cases h : (isArrayField (.obj fields) "expenses" ||
            isArrayField (.obj fields) "budgets" || isArrayField (.obj fields) "savings") = true
        · rw [hobj, if_pos h]
        · rw [hobj, if_neg h]
  · rcases parsed with msg | j
    · simp [handleFile]
    · rcases j with _ | b | q | s | elems | fields
      · simp [handleFile, typeofObject, isJObj]
      · simp [handleFile, typeofObject, isJObj]
      · simp [handleFile, typeofObject, isJObj]
      · simp [handleFile, typeofObject, isJObj]
      · simp [handleFile, typeofObject, isJObj, isArrayField, getField]
      · by_cases h : (isArrayField (.obj fields) "expenses" ||
            isArrayField (.obj fields) "budgets" || isArrayField (.obj fields) "savings") = true
        · rw [hobj, if_pos h]
          simp only [Bool.or_eq_true] at h
          constructor
          · rintro -
            exact ⟨.obj fields, rfl, ⟨fields, rfl⟩, by tauto⟩
          · rintro -
            exact ⟨.obj fields, rfl⟩
        · rw [hobj, if_neg h]
          simp only [Bool.or_eq_true] at h
          constructor
          · rintro ⟨j, hj⟩
            exact absurd hj (by simp)
          · rintro ⟨j, hj, -, harr⟩
            rw [Except.ok.injEq] at hj
            subst hj
            exact absurd (by tauto) h
  · rcases parsed with msg | j
    · intro j nm h
      exact absurd h (by simp [handleFile])
    · rcases j with _ | b | q | s | elems | fields
      · intro j nm h
        exact absurd h (by simp [handleFile, typeofObject])
      · intro j nm h
        exact absurd h (by simp [handleFile, typeofObject])
      · intro j nm h
        exact absurd h (by simp [handleFile, typeofObject])
      · intro j nm h
        exact absurd h (by simp [handleFile, typeofObject])
      · intro j nm h
        exact absurd h (by simp [handleFile, typeofObject, isArrayField, getField])
      · intro j nm h
        by_cases hc : (isArrayField (.obj fields) "expenses" ||
            isArrayField (.obj fields) "budgets" || isArrayField (.obj fields) "savings") = true
        · rw [hobj, if_pos hc] at h
          rw [StageOutcome.staged.injEq] at h
          exact ⟨by rw [h.1], h.2.symm⟩
        · rw [hobj, if_neg hc] at h
          exact absurd h (by simp)
  · intro hn
    rcases parsed with msg | j
    · exact ⟨msg, rfl⟩
    · rcases j with _ | b | q | s | elems | fields
      · exact ⟨nullAccessMsg, rfl⟩
      · exact ⟨"Invalid backup file.", rfl⟩
      · exact ⟨"Invalid backup file.", rfl⟩
      · exact ⟨"Invalid backup file.", rfl⟩
      · exact ⟨"Invalid backup file.", rfl⟩
      · by_cases hc : (isArrayField (.obj fields) "expenses" ||
            isArrayField (.obj fields) "budgets" || isArrayField (.obj fields) "savings") = true
        · exact absurd ⟨.obj fields, by rw [hobj, if_pos hc]⟩ hn
        · exact ⟨"Invalid backup file.", by rw [hobj, if_neg hc]⟩

/-- Witness for `handleFile_spec`: a parsed object whose `expenses` field is
an array is staged. -/
theorem handleFile_spec_witness :
    ∃ j, (handleFile "backup.json" (.ok (.obj [("expenses", .arr [])]))).1 =
      .staged j "backup.json" :=
  (handleFile_spec "backup.json" (.ok (.obj [("expenses", .arr [])]))).2.1.2
    ⟨.obj [("expenses", .arr [])], rfl, ⟨[("expenses", .arr [])], rfl⟩, Or.inl rfl⟩

/-- **C4, counterexample**: the claim fails as stated.  For window size
`M = 1` the source returns `[]` (the control treats `M ≤ 1` as "off"), so
the output is not parallel to the input; and for `M = 3` on `[0, 0, 1]` the
entry is the mean rounded to two decimals (`0.33`), not the arithmetic mean
`1/3`. -/
theorem movingAvg_claim_cex :
    movingAvg 1 [(100 : ℚ)] = [] ∧
    (movingAvg 1 [(100 : ℚ)]).length ≠ [(100 : ℚ)].length ∧
    movingAvg 3 [0, 0, 1] = [none, none, some (33 / 100)] ∧
    (33 / 100 : ℚ) ≠ sum [0, 0, 1] / 3 := by
  refine ⟨by norm_num [movingAvg], by norm_num [movingAvg], ?_, by norm_num [sum]⟩
  simp [movingAvg, List.mapIdx_eq_enum_map, List.enum, List.enumFrom, Function.uncurry, sum]
  norm_num [toFixed2]

/-- **C4, amended**: for every window size `M ≥ 2` the moving-average output
is parallel to the windowed input — entry `i` is `none` when `i + 1 < M` and
otherwise the arithmetic mean of the `M` input values ending at index `i`,
rounded to two decimal places (`toFixed(2)`); for `M ≤ 1` the output is the
empty list (moving average disabled).  For `[100, 200, 300, 400]` and
`M = 3` the output is `[none, none, 200, 300]` as the spec states. -/
theorem movingAvg_spec (M : ℕ) (vals : List ℚ) :
    (M ≤ 1 → movingAvg M vals = []) ∧
    (2 ≤ M → (movingAvg M vals).length = vals.length) ∧
    (2 ≤ M → ∀ i, i < vals.length → i + 1 < M → (movingAvg M vals)[i]? = some none) ∧
    (2 ≤ M → ∀ i, i < vals.length → M ≤ i + 1 →
      (movingAvg M vals)[i]? =
        some (some (toFixed2 (sum ((vals.take (i + 1)).drop (i + 1 - M)) / M)))) ∧
    movingAvg 3 [100, 200, 300, 400] = [none, none, some 200, some 300] := by
  have hval : ∀ (h2 : 2 ≤ M) (i : ℕ) (hi : i < vals.length),
      (movingAvg M vals)[i]? =
        some (if i + 1 < M then none
          else some (toFixed2 (sum ((vals.drop (i + 1 - M)).take M) / M))) := by
    intro h2 i hi
    unfold movingAvg
    rw [if_neg (by omega)]
    have hi' : i < (vals.mapIdx fun i _ =>
        if i + 1 < M then none
        else some (toFixed2 (sum ((vals.drop (i + 1 - M)).take M) / M))).length := by
      rw [List.length_mapIdx]
      exact hi
    rw [List.getElem?_eq_getElem hi']
    congr 1
    rw [List.getElem_mapIdx]
  refine ⟨?_, ?_, ?_, ?_, ?_⟩
  · intro h
    unfold movingAvg
    rw [if_pos h]
  · intro h2
    unfold movingAvg
    rw [if_neg (by omega)]
    exact List.length_mapIdx
  · intro h2 i hi hlt
    rw [hval h2 i hi, if_pos hlt]
  · intro h2 i hi hge
    rw [hval h2 i hi, if_neg (by omega)]
    rw [List.drop_take]
    have : i + 1 - (i + 1 - M) = M := by omega
    rw [this]
  · simp [movingAvg, List.mapIdx_eq_enum_map, List.enum, List.enumFrom, Function.uncurry, sum]
    norm_num [toFixed2]

/-- Witness for `movingAvg_spec` at `M = 3`, input `[100, 200, 300, 400]`,
index `2`. -/
theorem movingAvg_spec_witness :
    (movingAvg 3 [100, 200, 300, 400])[2]? =
      some (some (toFixed2 (sum (([(100 : ℚ), 200, 300, 400].take (2 + 1)).drop (2 + 1 - 3)) /
        ((3 : ℕ) : ℚ)))) :=
  (movingAvg_spec 3 [100, 200, 300, 400]).2.2.2.1 (by norm_num) 2 (by norm_num) (by norm_num)

/-- Stability of one `orderedInsert` against `catLe`: entries whose amount
equals `q` keep their relative order; the inserted entry lands after every
earlier entry of equal amount. -/
theorem filter_orderedInsert (x : Cat) (l : List Cat) (q : ℚ) :
    (List.orderedInsert catLe x l).filter (fun c => decide (c.2 = q)) =
      if x.2 = q then x :: l.filter (fun c => decide (c.2 = q))
      else l.filter (fun c => decide (c.2 = q)) := by
  rw [List.orderedInsert_eq_take_drop, List.filter_append, List.filter_cons]
  have htw : (l.takeWhile fun b => decide ¬ catLe x b).filter
      (fun c => decide (c.2 = q)) = [] ∨ ¬ x.2 = q := by
    by_cases hx : x.2 = q
    · left
      rw [List.filter_eq_nil_iff]
      intro a ha
      have h1 := List.mem_takeWhile_imp ha
      rw [decide_eq_true_eq] at h1
      have h2 : x.2 < a.2 := lt_of_not_le h1
      rw [decide_eq_true_eq]
      intro hq
      rw [hq, hx] at h2
      exact lt_irrefl q h2
    · right
      exact hx
  have hsplit : l.filter (fun c => decide (c.2 = q)) =
      (l.takeWhile fun b => decide ¬ catLe x b).filter (fun c => decide (c.2 = q)) ++
        (l.dropWhile fun b => decide ¬ catLe x b).filter (fun c => decide (c.2 = q)) := by
    conv_lhs => rw [← List.takeWhile_append_dropWhile (p := fun b => decide ¬ catLe x b) (l := l)]
    rw [List.filter_append]
  by_cases hx : x.2 = q
  · rcases htw with htw | htw
    · rw [if_pos hx, hsplit, htw]
      simp [hx]
    · exact absurd hx htw
  · rw [if_neg hx, hsplit]
    simp [hx]

/-- Stability of the category sort: filtering the sorted list by any fixed
amount `q` returns exactly the input's entries of amount `q`, in input
order. -/
theorem filter_insertionSort (q : ℚ) : ∀ l : List Cat,
    (List.insertionSort catLe l).filter (fun c => decide (c.2 = q)) =
      l.filter (fun c => decide (c.2 = q))
  | [] => rfl
  | x :: xs => by
    have : List.insertionSort catLe (x :: xs) =
        List.orderedInsert catLe x (List.insertionSort catLe xs) := rfl
    rw [this, filter_orderedInsert, List.filter_cons]
    by_cases hx : x.2 = q
    · rw [if_pos hx, filter_insertionSort q xs]
      simp [hx]
    · rw [if_neg hx, filter_insertionSort q xs]
      simp [hx]

/-- **C5, counterexample**: the claim's "omitting the Other entry exactly
when that sum is zero" fails: with `catLimit = 1` and categories
`[("A", 50), ("B", -10)]` the remaining sum is `-10 ≠ 0`, yet the source
omits the "Other" entry (it tests `otherSum > 0`, not `otherSum ≠ 0`). -/
theorem catTop_claim_cex :
    catTop 1 [("A", 50), ("B", -10)] = [("A", 50)] ∧
    sum (((categoriesSorted [("A", 50), ("B", -10)]).drop 1).map fun c => c.2) = -10 ∧
    (-10 : ℚ) ≠ 0 := by
  refine ⟨?_, ?_, by norm_num⟩ <;>
    norm_num [catTop, categoriesSorted, List.insertionSort, List.orderedInsert, catLe, sum]

/-- **C5, amended**: the top-N view sorts category totals descending by
amount (a permutation of the input, stable on ties — filtering by any amount
preserves input order), takes the first `catLimit` entries verbatim, and
appends one synthetic `("Other", rest-sum)` entry exactly when the remaining
sum is strictly positive (it is omitted whenever that sum is `≤ 0`, in
particular when it is zero).  The spec's two examples hold. -/
theorem catTop_spec (catLimit : ℕ) (cats : List Cat) :
    List.Perm (categoriesSorted cats) cats ∧
    List.Pairwise catLe (categoriesSorted cats) ∧
    (∀ q : ℚ, (categoriesSorted cats).filter (fun c => decide (c.2 = q)) =
      cats.filter (fun c => decide (c.2 = q))) ∧
    (0 < sum (((categoriesSorted cats).drop catLimit).map fun c => c.2) →
      catTop catLimit cats =
        (categoriesSorted cats).take catLimit ++
          [("Other", sum (((categoriesSorted cats).drop catLimit).map fun c => c.2))]) ∧
    (sum (((categoriesSorted cats).drop catLimit).map fun c => c.2) ≤ 0 →
      catTop catLimit cats = (categoriesSorted cats).take catLimit) ∧
    catTop 2 [("A", 50), ("B", 30), ("C", 10), ("D", 5), ("E", 5)] =
      [("A", 50), ("B", 30), ("Other", 20)] ∧
    catTop 5 [("A", 50), ("B", 30), ("C", 10), ("D", 5), ("E", 5)] =
      [("A", 50), ("B", 30), ("C", 10), ("D", 5), ("E", 5)] := by
  refine ⟨List.perm_insertionSort catLe cats, List.sorted_insertionSort catLe cats,
    fun q => filter_insertionSort q cats, ?_, ?_, ?_, ?_⟩
  · intro h
    unfold catTop
    rw [if_pos h]
  · intro h
    unfold catTop
    rw [if_neg (not_lt.mpr h)]
  · norm_num [catTop, categoriesSorted, List.insertionSort, List.orderedInsert, catLe, sum]
  · norm_num [catTop, categoriesSorted, List.insertionSort, List.orderedInsert, catLe, sum]

/-- Witness for `catTop_spec`: with a negative remaining sum the "Other"
entry is omitted. -/
theorem catTop_spec_witness :
    catTop 1 [("A", 50), ("B", -10)] = (categoriesSorted [("A", 50), ("B", -10)]).take 1 :=
  (catTop_spec 1 [("A", 50), ("B", -10)]).2.2.2.2.1 (by
    norm_num [categoriesSorted, List.insertionSort, List.orderedInsert, catLe, sum])

/-! ## Classifying API calls, and the call trace of the recreation phase -/

/-- The call is a `createExpense`. -/
def isExpCreate : ApiCall → Bool
  | .createExpense _ _ _ _ => true
  | _ => false

/-- The call is a `createBudget`. -/
def isBudCreate : ApiCall → Bool
  | .createBudget _ _ => true
  | _ => false

/-- The call is a `createSaving`. -/
def isSavCreate : ApiCall → Bool
  | .createSaving _ _ => true
  | _ => false

/-- The call is an `updateSaving`. -/
def isSavUpdate : ApiCall → Bool
  | .updateSaving _ _ => true
  | _ => false

/-- The call creates a record. -/
def isCreateCall (c : ApiCall) : Bool := isExpCreate c || isBudCreate c || isSavCreate c

/-- The call belongs to the recreation phase. -/
def isCreateOrUpd (c : ApiCall) : Bool := isCreateCall c || isSavUpdate c

/-- The call deletes a record. -/
def isDeleteCall : ApiCall → Bool
  | .deleteExpense _ | .deleteBudget _ | .deleteSaving _ => true
  | _ => false

/-- Position of a recreation call in the fixed phase order
(expenses, then budgets, then savings). -/
def phaseRank : ApiCall → ℕ
  | .createBudget _ _ => 1
  | .createSaving _ _ => 2
  | .updateSaving _ _ => 2
  | _ => 0

/-- The progress-step name of the phase a creation call belongs to. -/
def createPhase : ApiCall → String
  | .createExpense _ _ _ _ => "Importing expenses"
  | .createBudget _ _ => "Importing budgets"
  | .createSaving _ _ => "Importing savings"
  | _ => ""

/-- The `createExpense` request built from a document entry (recognized
fields only). -/
def expCreateCall (e : ExpenseDoc) : ApiCall :=
  .createExpense e.date e.category e.description (orZero e.amount)

/-- The `createBudget` request built from a document entry. -/
def budCreateCall (b : BudgetDoc) : ApiCall := .createBudget b.category (orZero b.limit)

/-- The `createSaving` request built from a document entry (name and target
only). -/
def savCreateCall (s : SavingDoc) : ApiCall := .createSaving s.name (orZero s.target)

/-- The one or two calls restoring the `k`-th saving entry. -/
def savBlock (ids : ℕ → Option ℕ) (k : ℕ) (s : SavingDoc) : List ApiCall :=
  savCreateCall s ::
    (match savingUpdateId (ids k) (orZero s.current) with
     | some i => [.updateSaving i (orZero s.current)]
     | none => [])

/-- The calls of the savings loop, starting at creation index `k`. -/
def savCalls (ids : ℕ → Option ℕ) : List SavingDoc → ℕ → List ApiCall
  | [], _ => []
  | s :: rest, k => savBlock ids k s ++ savCalls ids rest (k + 1)

/-- All API calls of the recreation phase. -/
def restoreCalls (ids : ℕ → Option ℕ) (p : BackupPayload) : List ApiCall :=
  callsOfSteps (restoreSteps ids p)

theorem callsOfSteps_cons (st : Step) (sts : List Step) :
    callsOfSteps (st :: sts) = st.calls ++ callsOfSteps sts := rfl

theorem callsOfSteps_append (a b : List Step) :
    callsOfSteps (a ++ b) = callsOfSteps a ++ callsOfSteps b := by
  simp [callsOfSteps]

theorem callsOfSteps_expenseSteps (total : ℕ) :
    ∀ (es : List ExpenseDoc) (done : ℕ),
      callsOfSteps (expenseSteps total es done) = es.map expCreateCall
  | [], _ => rfl
  | e :: rest, done => by
    rw [expenseSteps, callsOfSteps_cons, callsOfSteps_expenseSteps total rest (done + 1)]
    rfl

theorem callsOfSteps_budgetSteps (total : ℕ) :
    ∀ (bs : List BudgetDoc) (done : ℕ),
      callsOfSteps (budgetSteps total bs done) = bs.map budCreateCall
  | [], _ => rfl
  | b :: rest, done => by
    rw [budgetSteps, callsOfSteps_cons, callsOfSteps_budgetSteps total rest (done + 1)]
    rfl

theorem callsOfSteps_savingSteps (ids : ℕ → Option ℕ) (total : ℕ) :
    ∀ (ss : List SavingDoc) (k done : ℕ),
      callsOfSteps (savingSteps ids total ss k done) = savCalls ids ss k
  | [], _, _ => rfl
  | s :: rest, k, done => by
    rw [savingSteps, savCalls, callsOfSteps_append,
      callsOfSteps_savingSteps ids total rest (k + 1) (done + 1)]
    rcases h : savingUpdateId (ids k) (orZero s.current) with - | i <;>
      simp [h, savBlock, callsOfSteps, savCreateCall]

theorem restoreCalls_eq (ids : ℕ → Option ℕ) (p : BackupPayload) :
    restoreCalls ids p =
      (docExpenses p).map expCreateCall ++ (docBudgets p).map budCreateCall ++
        savCalls ids (docSavings p) 0 := by
  rw [restoreCalls, restoreSteps, callsOfSteps_append, callsOfSteps_append, callsOfSteps_cons,
    callsOfSteps_cons, callsOfSteps_cons, callsOfSteps_expenseSteps, callsOfSteps_budgetSteps,
    callsOfSteps_savingSteps]
  simp

/-- Shape of the savings-loop calls: each is a creation built from an
entry's name and target, or a saving update. -/
theorem mem_savCalls (ids : ℕ → Option ℕ) :
    ∀ (ss : List SavingDoc) (k : ℕ) (c : ApiCall), c ∈ savCalls ids ss k →
      (∃ s : SavingDoc, c = savCreateCall s) ∨ ∃ i cur, c = .updateSaving i cur
  | [], _, c => by simp [savCalls]
  | s :: rest, k, c => by
    intro hc
    rw [savCalls, List.mem_append] at hc
    rcases hc with hc | hc
    · rw [savBlock, List.mem_cons] at hc
      rcases hc with hc | hc
      · exact Or.inl ⟨s, hc⟩
      · rcases h : savingUpdateId (ids k) (orZero s.current) with - | i <;> rw [h] at hc
        · simp at hc
        · rw [List.mem_singleton] at hc
          exact Or.inr ⟨i, orZero s.current, hc⟩
    · exact mem_savCalls ids rest (k + 1) c hc

/-- In the savings loop every `updateSaving` sits immediately after a
`createSaving`, and its id is the one the server assigned to that (the
most recent) creation. -/
theorem savCalls_update_adjacent (ids : ℕ → Option ℕ) :
    ∀ (ss : List SavingDoc) (k i id : ℕ) (cur : ℚ),
      (savCalls ids ss k)[i]? = some (.updateSaving id cur) →
      0 < i ∧ (∃ nm tg, (savCalls ids ss k)[i - 1]? = some (.createSaving nm tg)) ∧
        ids (k + ((savCalls ids ss k).take i).countP isSavCreate - 1) = some id
  | [], k, i, id, cur => by simp [savCalls]
  | s :: rest, k, i, id, cur => by
    intro h
    have hdef : savCalls ids (s :: rest) k = savBlock ids k s ++ savCalls ids rest (k + 1) := rfl
    rcases hupd : savingUpdateId (ids k) (orZero s.current) with - | j
    · -- no update for this entry: the block is a single creation
      have hb : savBlock ids k s = [savCreateCall s] := by rw [savBlock, hupd]
      rcases i with - | n
      · rw [hdef, hb] at h
        simp [savCreateCall] at h
      · rw [hdef, hb, List.getElem?_append_right (by simp)] at h
        simp only [List.length_singleton, Nat.add_sub_cancel] at h
        obtain ⟨h0, ⟨nm, tg, hc⟩, hid⟩ :=
          savCalls_update_adjacent ids rest (k + 1) n id cur h
        refine ⟨Nat.succ_pos n, ⟨nm, tg, ?_⟩, ?_⟩
        · rw [hdef, hb, Nat.add_sub_cancel,
            List.getElem?_append_right (by simp; omega)]
          have harg : n - [savCreateCall s].length = n - 1 := by simp
          rw [harg]
          exact hc
        · rw [hdef, hb, List.take_append_eq_append_take, List.countP_append]
          have ht : [savCreateCall s].take (n + 1) = [savCreateCall s] :=
            List.take_of_length_le (by simp)
          rw [ht]
          have hc1 : [savCreateCall s].countP isSavCreate = 1 := by
            simp [savCreateCall, isSavCreate]
          rw [hc1]
          have harg : n + 1 - [savCreateCall s].length = n := by simp
          rw [harg]
          have harg2 : k + (1 + (List.countP isSavCreate
              ((savCalls ids rest (k + 1)).take n))) - 1 =
              k + 1 + (List.countP isSavCreate ((savCalls ids rest (k + 1)).take n)) - 1 := by
            omega
          rw [harg2]
          exact hid
    · -- the block is a creation followed by its dependent update
      have hb : savBlock ids k s =
          [savCreateCall s, .updateSaving j (orZero s.current)] := by rw [savBlock, hupd]
      have hik : ids k = some j := by
        rcases hk : ids k with - | m
        · rw [hk] at hupd
          simp [savingUpdateId] at hupd
        · rw [hk] at hupd
          simp only [savingUpdateId] at hupd
          split at hupd
          · rw [Option.some.injEq] at hupd
            rw [hupd]
          · exact absurd hupd (by simp)
      rcases i with - | - | n
      · rw [hdef, hb] at h
        simp [savCreateCall] at h
      · rw [hdef, hb] at h
        have h1 : ([savCreateCall s, ApiCall.updateSaving j (orZero s.current)] ++
            savCalls ids rest (k + 1))[1]? =
            some (ApiCall.updateSaving j (orZero s.current)) := by
          rw [List.getElem?_append_left (by simp)]
          rfl
        rw [h1, Option.some.injEq] at h
        have hj : j = id := by
          injection h
        refine ⟨Nat.one_pos, ⟨s.name, orZero s.target, ?_⟩, ?_⟩
        · rw [hdef, hb, List.getElem?_append_left (by simp)]
          rfl
        · rw [hdef, hb]
          have ht : ([savCreateCall s, ApiCall.updateSaving j (orZero s.current)] ++
              savCalls ids rest (k + 1)).take 1 = [savCreateCall s] := rfl
          rw [ht]
          have hc1 : [savCreateCall s].countP isSavCreate = 1 := by
            simp [savCreateCall, isSavCreate]
          rw [hc1]
          simpa [hj] using hik
      · rw [hdef, hb, List.getElem?_append_right (by simp)] at h
        have harg : n + 1 + 1 - [savCreateCall s,
            ApiCall.updateSaving j (orZero s.current)].length = n := by simp
        rw [harg] at h
        obtain ⟨h0, ⟨nm, tg, hc⟩, hid⟩ :=
          savCalls_update_adjacent ids rest (k + 1) n id cur h
        refine ⟨by omega, ⟨nm, tg, ?_⟩, ?_⟩
        · rw [hdef, hb]
          have harg1 : n + 1 + 1 - 1 = n + 1 := by omega
          rw [harg1, List.getElem?_append_right (by simp [Nat.succ_le_iff]; omega)]
          have harg2 : n + 1 - [savCreateCall s,
              ApiCall.updateSaving j (orZero s.current)].length = n - 1 := by
            simp
          rw [harg2]
          exact hc
        · rw [hdef, hb, List.take_append_eq_append_take, List.countP_append]
          have ht : [savCreateCall s, ApiCall.updateSaving j (orZero s.current)].take
              (n + 1 + 1) = [savCreateCall s, ApiCall.updateSaving j (orZero s.current)] :=
            List.take_of_length_le (by simp)
          rw [ht]
          have hc1 : [savCreateCall s, ApiCall.updateSaving j
              (orZero s.current)].countP isSavCreate = 1 := by
            simp [savCreateCall, isSavCreate]
          rw [hc1]
          have harg2 : n + 1 + 1 - [savCreateCall s,
              ApiCall.updateSaving j (orZero s.current)].length = n := by simp
          rw [harg2]
          have harg3 : k + (1 + (List.countP isSavCreate
              ((savCalls ids rest (k + 1)).take n))) - 1 =
              k + 1 + (List.countP isSavCreate ((savCalls ids rest (k + 1)).take n)) - 1 := by
            omega
          rw [harg3]
          exact hid

/-- Lifting `savCalls_update_adjacent` to the whole recreation phase: the
expense and budget segments contain no saving calls. -/
theorem restoreCalls_update_adjacent (ids : ℕ → Option ℕ) (p : BackupPayload)
    (i id : ℕ) (cur : ℚ)
    (h : (restoreCalls ids p)[i]? = some (.updateSaving id cur)) :
    0 < i ∧ (∃ nm tg, (restoreCalls ids p)[i - 1]? = some (.createSaving nm tg)) ∧
      ids (((restoreCalls ids p).take i).countP isSavCreate - 1) = some id := by
  have hre : restoreCalls ids p =
      ((docExpenses p).map expCreateCall ++ (docBudgets p).map budCreateCall) ++
        savCalls ids (docSavings p) 0 := by
    rw [restoreCalls_eq]
  set A := (docExpenses p).map expCreateCall ++ (docBudgets p).map budCreateCall with hA
  have hAupd : ∀ c ∈ A, isSavUpdate c = false := by
    intro c hc
    rw [hA, List.mem_append] at hc
    rcases hc with hc | hc <;> obtain ⟨x, -, rfl⟩ := List.mem_map.mp hc <;> rfl
  have hAsav : ∀ c ∈ A, isSavCreate c = false := by
    intro c hc
    rw [hA, List.mem_append] at hc
    rcases hc with hc | hc <;> obtain ⟨x, -, rfl⟩ := List.mem_map.mp hc <;> rfl
  have hge : A.length ≤ i := by
    by_contra hlt
    push_neg at hlt
    rw [hre, List.getElem?_append_left hlt] at h
    have hmem := List.getElem?_mem h
    have := hAupd _ hmem
    simp [isSavUpdate] at this
  rw [hre, List.getElem?_append_right hge] at h
  obtain ⟨h0, ⟨nm, tg, hc⟩, hid⟩ :=
    savCalls_update_adjacent ids (docSavings p) 0 (i - A.length) id cur h
  refine ⟨by omega, ⟨nm, tg, ?_⟩, ?_⟩
  · rw [hre, List.getElem?_append_right (by omega)]
    have harg : i - 1 - A.length = i - A.length - 1 := by omega
    rw [harg]
    exact hc
  · rw [hre, List.take_append_eq_append_take, List.countP_append]
    rw [List.take_of_length_le hge]
    have hAc : A.countP isSavCreate = 0 :=
      List.countP_eq_zero.mpr (by intro a ha; simp [hAsav a ha])
    rw [hAc]
    simpa using hid

theorem expenseSteps_calls_le (total : ℕ) :
    ∀ (es : List ExpenseDoc) (done : ℕ) (st : Step),
      st ∈ expenseSteps total es done → st.calls.length ≤ 1
  | [], _, st => by simp [expenseSteps]
  | e :: rest, done, st => by
    intro h
    rw [expenseSteps, List.mem_cons] at h
    rcases h with h | h
    · subst h
      exact le_refl 1
    · exact expenseSteps_calls_le total rest (done + 1) st h

theorem budgetSteps_calls_le (total : ℕ) :
    ∀ (bs : List BudgetDoc) (done : ℕ) (st : Step),
      st ∈ budgetSteps total bs done → st.calls.length ≤ 1
  | [], _, st => by simp [budgetSteps]
  | b :: rest, done, st => by
    intro h
    rw [budgetSteps, List.mem_cons] at h
    rcases h with h | h
    · subst h
      exact le_refl 1
    · exact budgetSteps_calls_le total rest (done + 1) st h

theorem savingSteps_calls_le (ids : ℕ → Option ℕ) (total : ℕ) :
    ∀ (ss : List SavingDoc) (k done : ℕ) (st : Step),
      st ∈ savingSteps ids total ss k done → st.calls.length ≤ 1
  | [], _, _, st => by simp [savingSteps]
  | s :: rest, k, done, st => by
    intro h
    rw [savingSteps, List.mem_append] at h
    rcases h with h | h
    · rcases hupd : savingUpdateId (ids k) (orZero s.current) with - | j <;> rw [hupd] at h <;>
        simp only [List.mem_cons, List.mem_singleton, List.not_mem_nil, or_false] at h
      · subst h
        exact le_refl 1
      · rcases h with h | h <;> subst h <;> exact le_refl 1
    · exact savingSteps_calls_le ids total rest (k + 1) (done + 1) st h

/-- Every step of the recreation phase awaits at most one API call: the
loops are strictly sequential (unlike the batched deletes). -/
theorem restoreSteps_calls_le (ids : ℕ → Option ℕ) (p : BackupPayload) :
    ∀ st ∈ restoreSteps ids p, st.calls.length ≤ 1 := by
  intro st h
  rw [restoreSteps] at h
  simp only [List.mem_append, List.mem_cons] at h
  rcases h with ((h | h) | h | h) | h | h
  · subst h
    exact Nat.zero_le 1
  · exact expenseSteps_calls_le _ _ _ _ h
  · subst h
    exact Nat.zero_le 1
  · exact budgetSteps_calls_le _ _ _ _ h
  · subst h
    exact Nat.zero_le 1
  · exact savingSteps_calls_le _ _ _ _ _ _ h

/-- The full call sequence of an import run: the batched read, the three
delete batches, then the recreation calls. -/
theorem importCalls_eq (env : ImportEnv) (p : BackupPayload) :
    callsOfSteps (importSteps env p) =
      ([ApiCall.getExpenses, ApiCall.getBudgets, ApiCall.getSavings] ++
        env.existingExpenseIds.map ApiCall.deleteExpense ++
        env.existingBudgetIds.map ApiCall.deleteBudget ++
        env.existingSavingIds.map ApiCall.deleteSaving) ++
        restoreCalls env.savingIds p := by
  rw [importSteps, callsOfSteps_cons, callsOfSteps_cons, callsOfSteps_cons, callsOfSteps_cons]
  simp [restoreCalls, List.append_assoc]

/-- No call of the recreation phase is a delete. -/
theorem restoreCalls_not_delete (ids : ℕ → Option ℕ) (p : BackupPayload) :
    ∀ c ∈ restoreCalls ids p, isDeleteCall c = false := by
  rw [restoreCalls_eq]
  intro c hc
  simp only [List.mem_append] at hc
  rcases hc with (hc | hc) | hc
  · obtain ⟨x, -, rfl⟩ := List.mem_map.mp hc
    rfl
  · obtain ⟨x, -, rfl⟩ := List.mem_map.mp hc
    rfl
  · rcases mem_savCalls _ _ _ _ hc with ⟨s, rfl⟩ | ⟨j, cur, rfl⟩ <;> rfl

/-- **C2**: After the deletion phase, records are recreated strictly
sequentially (every recreation step awaits at most one call) in the fixed
phase order expenses → budgets → savings (`phaseRank` never decreases along
the recreation call sequence, and no delete call follows a recreation call);
within savings, every `updateSaving` is issued immediately after a
`createSaving` and carries exactly the id the server assigned to that —
the most recent — creation. -/
theorem restore_order_spec (p : BackupPayload) (env : ImportEnv) :
    (restoreCalls env.savingIds p).Pairwise (fun a b => phaseRank a ≤ phaseRank b) ∧
    (∀ st ∈ restoreSteps env.savingIds p, st.calls.length ≤ 1) ∧
    (callsOfSteps (importSteps env p)).Pairwise
      (fun a b => ¬(isCreateOrUpd a = true ∧ isDeleteCall b = true)) ∧
    (∀ i id cur,
      (restoreCalls env.savingIds p)[i]? = some (.updateSaving id cur) →
      0 < i ∧
      (∃ nm tg, (restoreCalls env.savingIds p)[i - 1]? = some (.createSaving nm tg)) ∧
      env.savingIds (((restoreCalls env.savingIds p).take i).countP isSavCreate - 1) =
        some id) := by
  refine ⟨?_, restoreSteps_calls_le env.savingIds p, ?_,
    fun i id cur h => restoreCalls_update_adjacent env.savingIds p i id cur h⟩
  · rw [restoreCalls_eq]
    refine List.pairwise_append.mpr ⟨List.pairwise_append.mpr ⟨?_, ?_, ?_⟩, ?_, ?_⟩
    · refine List.pairwise_of_forall_mem_list ?_
      intro a ha b hb
      obtain ⟨e, -, rfl⟩ := List.mem_map.mp ha
      exact Nat.zero_le _
    · refine List.pairwise_of_forall_mem_list ?_
      intro a ha b hb
      obtain ⟨x, -, rfl⟩ := List.mem_map.mp ha
      obtain ⟨y, -, rfl⟩ := List.mem_map.mp hb
      exact le_refl _
    · intro a ha b hb
      obtain ⟨e, -, rfl⟩ := List.mem_map.mp ha
      exact Nat.zero_le _
    · refine List.pairwise_of_forall_mem_list ?_
      intro a ha b hb
      rcases mem_savCalls _ _ _ _ ha with ⟨s, rfl⟩ | ⟨j, cur, rfl⟩ <;>
        rcases mem_savCalls _ _ _ _ hb with ⟨s', rfl⟩ | ⟨j', cur', rfl⟩ <;>
        exact le_refl _
    · intro a ha b hb
      rcases mem_savCalls _ _ _ _ hb with ⟨s, rfl⟩ | ⟨j, cur, rfl⟩ <;>
        rcases List.mem_append.mp ha with h' | h' <;>
        obtain ⟨x, -, rfl⟩ := List.mem_map.mp h' <;>
        norm_num [phaseRank, expCreateCall, budCreateCall, savCreateCall]
  · rw [importCalls_eq]
    have hPre : ∀ c ∈ ([ApiCall.getExpenses, ApiCall.getBudgets, ApiCall.getSavings] ++
        env.existingExpenseIds.map ApiCall.deleteExpense ++
        env.existingBudgetIds.map ApiCall.deleteBudget ++
        env.existingSavingIds.map ApiCall.deleteSaving), isCreateOrUpd c = false := by
      intro c hc
      simp only [List.mem_append, List.mem_cons, List.not_mem_nil, or_false] at hc
      rcases hc with (((hc | hc | hc) | hc) | hc) | hc
      · subst hc; rfl
      · subst hc; rfl
      · subst hc; rfl
      · obtain ⟨x, -, rfl⟩ := List.mem_map.mp hc; rfl
      · obtain ⟨x, -, rfl⟩ := List.mem_map.mp hc; rfl
      · obtain ⟨x, -, rfl⟩ := List.mem_map.mp hc; rfl
    refine List.pairwise_append.mpr ⟨?_, ?_, ?_⟩
    · refine List.pairwise_of_forall_mem_list ?_
      intro a ha b hb hand
      rw [hPre a ha] at hand
      exact Bool.noConfusion hand.1
    · refine List.pairwise_of_forall_mem_list ?_
      intro a ha b hb hand
      rw [restoreCalls_not_delete env.savingIds p b hb] at hand
      exact Bool.noConfusion hand.2
    · intro a ha b hb hand
      rw [hPre a ha] at hand
      exact Bool.noConfusion hand.1

/-- A concrete backup payload for witnesses: one expense, one budget, two
savings (the first with a positive `current`, the second without one). -/
def samplePayload : BackupPayload :=
  { expenses := some [⟨"2025-01-02", "Food", "Groceries", some 3200⟩],
    budgets := some [⟨"Food", some 20000⟩],
    savings := some [⟨"Emergency", some 200000, some 25000⟩, ⟨"Phone", some 150000, none⟩] }

/-- A concrete import environment for witnesses: one existing record per
category, the server assigns saving ids `1, 2, …`, and no call fails. -/
def sampleEnv : ImportEnv :=
  { existingExpenseIds := [1], existingBudgetIds := [2], existingSavingIds := [3],
    savingIds := fun k => some (k + 1), failAt := none, failMsg := "" }

theorem sample_restoreCalls :
    restoreCalls sampleEnv.savingIds samplePayload =
      [.createExpense "2025-01-02" "Food" "Groceries" 3200, .createBudget "Food" 20000,
        .createSaving "Emergency" 200000, .updateSaving 1 25000,
        .createSaving "Phone" 150000] := by
  rw [restoreCalls_eq]
  norm_num [samplePayload, sampleEnv, docExpenses, docBudgets, docSavings, savCalls, savBlock,
    savingUpdateId, savCreateCall, expCreateCall, budCreateCall, orZero]

/-- Witness for `restore_order_spec`: in the sample run the `updateSaving`
at position 3 immediately follows its `createSaving` and uses the id the
server assigned to it. -/
theorem restore_order_spec_witness :
    0 < 3 ∧
    (∃ nm tg, (restoreCalls sampleEnv.savingIds samplePayload)[3 - 1]? =
      some (.createSaving nm tg)) ∧
    sampleEnv.savingIds
        (((restoreCalls sampleEnv.savingIds samplePayload).take 3).countP isSavCreate - 1) =
      some 1 :=
  (restore_order_spec samplePayload sampleEnv).2.2.2 3 1 25000
    (by rw [sample_restoreCalls]; rfl)

theorem callsOfEvents_append (a b : List Event) :
    callsOfEvents (a ++ b) = callsOfEvents a ++ callsOfEvents b := by
  simp [callsOfEvents]

theorem callsOfEvents_map_call (cs : List ApiCall) :
    callsOfEvents (cs.map Event.call) = cs := by
  induction cs with
  | nil => rfl
  | cons c rest ih => simp [callsOfEvents, List.filterMap_cons] at ih ⊢; exact ih

theorem callsOfEvents_stepEvents (st : Step) :
    callsOfEvents (stepEvents st) = st.calls ++ callsOfEvents st.after := by
  rw [stepEvents, callsOfEvents_append, callsOfEvents_map_call]

/-- With no failure injected, every step runs and the run completes. -/
theorem runSteps_none : ∀ sts : List Step, runSteps sts none = (eventsOfSteps sts, true)
  | [] => rfl
  | st :: rest => by
    simp [runSteps, runSteps_none rest, eventsOfSteps]

/-- A failure at call `n` (within range) makes the run incomplete, and the
calls actually issued are an initial segment of the no-failure call
sequence: nothing is retried and nothing later is attempted. -/
theorem runSteps_fail : ∀ (sts : List Step) (n : ℕ),
    n < (callsOfSteps sts).length →
    (runSteps sts (some n)).2 = false ∧
    ∃ tail, callsOfEvents (eventsOfSteps sts) =
      callsOfEvents ((runSteps sts (some n)).1) ++ tail
  | [], n => by simp [callsOfSteps]
  | st :: rest, n => by
    intro hn
    rw [callsOfSteps_cons, List.length_append] at hn
    by_cases h : n < st.calls.length
    · refine ⟨by simp [runSteps, h], ?_⟩
      refine ⟨callsOfEvents st.after ++ callsOfEvents (eventsOfSteps rest), ?_⟩
      have he : eventsOfSteps (st :: rest) = stepEvents st ++ eventsOfSteps rest := by
        simp [eventsOfSteps]
      rw [he, callsOfEvents_append, callsOfEvents_stepEvents]
      simp [runSteps, h, callsOfEvents_map_call, List.append_assoc]
    · push_neg at h
      obtain ⟨hok, tail, htail⟩ := runSteps_fail rest (n - st.calls.length) (by omega)
      constructor
      · simp [runSteps, not_lt.mpr h, hok]
      · refine ⟨tail, ?_⟩
        have he : eventsOfSteps (st :: rest) = stepEvents st ++ eventsOfSteps rest := by
          simp [eventsOfSteps]
        have hr : (runSteps (st :: rest) (some n)).1 =
            stepEvents st ++ (runSteps rest (some (n - st.calls.length))).1 := by
          simp [runSteps, not_lt.mpr h]
        rw [he, hr, callsOfEvents_append, callsOfEvents_append, htail, List.append_assoc]

/-- Both outcomes of `runImport` emit the initial "Clearing existing" notice
followed by the events of the (possibly truncated) step run. -/
theorem runImport_events (p : BackupPayload) (env : ImportEnv) :
    (runImport (some p) true env).events =
      .progress "Clearing existing" 0 1 :: (runSteps (importSteps env p) env.failAt).1 := by
  unfold runImport
  by_cases h : (runSteps (importSteps env p) env.failAt).2 <;> simp [h]

/-- **C3**: If no call fails, the import run clears the pending document and
reports `"Import completed."`.  If the `n`-th call fails, the run halts:
the pending document is kept, the rejection's message is surfaced verbatim,
and the calls actually issued form an initial segment of the no-failure call
sequence (no retry, nothing further attempted). -/
theorem runImport_outcome_spec (p : BackupPayload) (env : ImportEnv) :
    (env.failAt = none →
      (runImport (some p) true env).pendingCleared = true ∧
      (runImport (some p) true env).info = "Import completed.") ∧
    (∀ n, env.failAt = some n → n < (callsOfSteps (importSteps env p)).length →
      (runImport (some p) true env).pendingCleared = false ∧
      (runImport (some p) true env).info = env.failMsg ∧
      ∃ tail,
        callsOfEvents (runImport (some p) true { env with failAt := none }).events =
          callsOfEvents (runImport (some p) true env).events ++ tail) := by
  constructor
  · intro h
    simp [runImport, h, runSteps_none]
  · intro n hfa hn
    obtain ⟨hok, tail, htail⟩ := runSteps_fail (importSteps env p) n hn
    have h1 : runImport (some p) true env =
        ⟨.progress "Clearing existing" 0 1 :: (runSteps (importSteps env p) (some n)).1,
          false, env.failMsg⟩ := by
      simp [runImport, hfa, hok]
    have h2 : runImport (some p) true { env with failAt := none } =
        ⟨.progress "Clearing existing" 0 1 :: eventsOfSteps (importSteps env p),
          true, "Import completed."⟩ := by
      have hsteps : importSteps { env with failAt := none } p = importSteps env p := rfl
      simp [runImport, runSteps_none, hsteps]
    rw [h1, h2]
    refine ⟨rfl, rfl, tail, ?_⟩
    have hprog : ∀ evs : List Event,
        callsOfEvents (.progress "Clearing existing" 0 1 :: evs) = callsOfEvents evs := by
      intro evs
      simp [callsOfEvents, List.filterMap_cons]
    simp only [hprog]
    exact htail

/-- The sample environment with the very first API call failing. -/
def sampleEnvFail : ImportEnv :=
  { existingExpenseIds := [1], existingBudgetIds := [2], existingSavingIds := [3],
    savingIds := fun k => some (k + 1), failAt := some 0,
    failMsg := "Network error. Is the API running on 4000?" }

/-- Witness for `runImport_outcome_spec`: the sample run with its first call
failing keeps the pending document, surfaces the message verbatim, and its
calls are an initial segment of the no-failure run's calls. -/
theorem runImport_outcome_spec_witness :
    (runImport (some samplePayload) true sampleEnvFail).pendingCleared = false ∧
    (runImport (some samplePayload) true sampleEnvFail).info = sampleEnvFail.failMsg ∧
    ∃ tail,
      callsOfEvents (runImport (some samplePayload) true
        { sampleEnvFail with failAt := none }).events =
        callsOfEvents (runImport (some samplePayload) true sampleEnvFail).events ++ tail :=
  (runImport_outcome_spec samplePayload sampleEnvFail).2 0 rfl
    (by rw [importCalls_eq]; simp)

/-! ## Progress reporting (claim C8) -/

/-- The events of a fully successful recreation phase. -/
def restoreEvents (ids : ℕ → Option ℕ) (p : BackupPayload) : List Event :=
  eventsOfSteps (restoreSteps ids p)

/-- The event is a record-creating API call. -/
def isCreateEvent : Event → Bool
  | .call c => isCreateCall c
  | _ => false

/-- Number of records created so far in an event trace. -/
def countCreates (evs : List Event) : ℕ := evs.countP isCreateEvent

/-- "Progress is reported after every successfully created record": every
create call at position `i` is followed, before any further create, by a
progress event for its phase whose `current` equals `base` plus the number
of creates completed so far, and whose `total` is `T`. -/
abbrev ProgAfter (T base : ℕ) (evs : List Event) : Prop :=
  ∀ i c, evs[i]? = some (Event.call c) → isCreateCall c = true →
    ∃ j, i < j ∧
      (∀ m c', i < m → m < j → evs[m]? = some (Event.call c') → isCreateCall c' = false) ∧
      evs[j]? = some (Event.progress (createPhase c) (base + countCreates (evs.take j)) T)

theorem countCreates_append (a b : List Event) :
    countCreates (a ++ b) = countCreates a + countCreates b :=
  List.countP_append _ _ _

theorem progAfter_nil {T base : ℕ} : ProgAfter T base [] := by
  intro i c h
  simp at h

theorem progAfter_prog {T base cnt t' : ℕ} {s : String} :
    ProgAfter T base [.progress s cnt t'] := by
  intro i c h
  rcases i with - | n <;> simp at h

theorem progAfter_append {T base : ℕ} {A B : List Event}
    (hA : ProgAfter T base A) (hB : ProgAfter T (base + countCreates A) B) :
    ProgAfter T base (A ++ B) := by
  intro i c hi hc
  by_cases hiA : i < A.length
  · rw [List.getElem?_append_left hiA] at hi
    obtain ⟨j, hij, hbet, hj⟩ := hA i c hi hc
    have hjA : j < A.length := by
      by_contra hcon
      push_neg at hcon
      rw [List.getElem?_eq_none_iff.mpr hcon] at hj
      exact Option.noConfusion hj
    refine ⟨j, hij, ?_, ?_⟩
    · intro m c' him hmj hm
      rw [List.getElem?_append_left (lt_trans hmj hjA)] at hm
      exact hbet m c' him hmj hm
    · rw [List.getElem?_append_left hjA, List.take_append_eq_append_take]
      have hz : j - A.length = 0 := by omega
      rw [hz]
      simp only [List.take_zero, List.append_nil]
      exact hj
  · push_neg at hiA
    rw [List.getElem?_append_right hiA] at hi
    obtain ⟨j', hij', hbet', hj'⟩ := hB (i - A.length) c hi hc
    refine ⟨A.length + j', by omega, ?_, ?_⟩
    · intro m c' him hmj hm
      rw [List.getElem?_append_right (by omega)] at hm
      exact hbet' (m - A.length) c' (by omega) (by omega) hm
    · rw [List.getElem?_append_right (by omega)]
      have harg : A.length + j' - A.length = j' := by omega
      rw [harg, List.take_append_eq_append_take, List.take_of_length_le (by omega), harg,
        countCreates_append, ← Nat.add_assoc]
      exact hj'

theorem progAfter_block {T base : ℕ} (c : ApiCall) (hcr : isCreateCall c = true) :
    ProgAfter T base [.call c, .progress (createPhase c) (base + 1) T] := by
  intro i c' h hc'
  rcases i with - | - | n
  · simp only [List.getElem?_cons_zero, Option.some.injEq, Event.call.injEq] at h
    subst h
    refine ⟨1, Nat.one_pos, ?_, ?_⟩
    · intro m c'' hm1 hm2 _
      omega
    · simp [countCreates, isCreateEvent, hcr]
  · simp at h
  · simp at h

theorem progAfter_block2 {T base : ℕ} (c u : ApiCall) (hcr : isCreateCall c = true)
    (hu : isCreateCall u = false) :
    ProgAfter T base [.call c, .call u, .progress (createPhase c) (base + 1) T] := by
  intro i c' h hc'
  rcases i with - | - | - | n
  · simp only [List.getElem?_cons_zero, Option.some.injEq, Event.call.injEq] at h
    subst h
    refine ⟨2, by omega, ?_, ?_⟩
    · intro m c'' hm1 hm2 hm
      have hm1' : m = 1 := by omega
      subst hm1'
      simp only [List.getElem?_cons_succ, List.getElem?_cons_zero, Option.some.injEq,
        Event.call.injEq] at hm
      rw [← hm]
      exact hu
    · simp [countCreates, isCreateEvent, hcr, hu]
  · simp only [List.getElem?_cons_succ, List.getElem?_cons_zero, Option.some.injEq,
      Event.call.injEq] at h
    subst h
    rw [hc'] at hu
    exact Bool.noConfusion hu
  · simp at h
  · simp at h

theorem progAfter_cons_prog {T base cnt t' : ℕ} {s : String} {evs : List Event}
    (h : ProgAfter T base evs) :
    ProgAfter T base (.progress s cnt t' :: evs) := by
  have hA : ProgAfter T base [Event.progress s cnt t'] := progAfter_prog
  have := progAfter_append (B := evs) hA (by simpa [countCreates, isCreateEvent] using h)
  simpa using this

theorem eventsOfSteps_cons (st : Step) (sts : List Step) :
    eventsOfSteps (st :: sts) = stepEvents st ++ eventsOfSteps sts := by
  simp [eventsOfSteps]

theorem eventsOfSteps_append (a b : List Step) :
    eventsOfSteps (a ++ b) = eventsOfSteps a ++ eventsOfSteps b := by
  simp [eventsOfSteps]

theorem countCreates_expenseSteps (T : ℕ) :
    ∀ (es : List ExpenseDoc) (done : ℕ),
      countCreates (eventsOfSteps (expenseSteps T es done)) = es.length
  | [], _ => rfl
  | e :: rest, done => by
    rw [expenseSteps, eventsOfSteps_cons, countCreates_append,
      countCreates_expenseSteps T rest (done + 1)]
    simp [stepEvents, countCreates, isCreateEvent, isCreateCall, isExpCreate, expCreateCall,
      Nat.add_comm]

theorem countCreates_budgetSteps (T : ℕ) :
    ∀ (bs : List BudgetDoc) (done : ℕ),
      countCreates (eventsOfSteps (budgetSteps T bs done)) = bs.length
  | [], _ => rfl
  | b :: rest, done => by
    rw [budgetSteps, eventsOfSteps_cons, countCreates_append,
      countCreates_budgetSteps T rest (done + 1)]
    simp [stepEvents, countCreates, isCreateEvent, isCreateCall, isBudCreate, budCreateCall,
      Nat.add_comm]

theorem progAfter_expenseSteps (T : ℕ) :
    ∀ (es : List ExpenseDoc) (done : ℕ),
      ProgAfter T done (eventsOfSteps (expenseSteps T es done))
  | [], _ => progAfter_nil
  | e :: rest, done => by
    have hev : eventsOfSteps (expenseSteps T (e :: rest) done) =
        [.call (expCreateCall e), .progress "Importing expenses" (done + 1) T] ++
          eventsOfSteps (expenseSteps T rest (done + 1)) := by
      rw [expenseSteps, eventsOfSteps_cons]
      rfl
    rw [hev]
    refine progAfter_append (progAfter_block (expCreateCall e) rfl) ?_
    have hcnt : countCreates [Event.call (expCreateCall e),
        .progress "Importing expenses" (done + 1) T] = 1 := by
      simp [countCreates, isCreateEvent, isCreateCall, isExpCreate, expCreateCall]
    rw [hcnt]
    exact progAfter_expenseSteps T rest (done + 1)

theorem progAfter_budgetSteps (T : ℕ) :
    ∀ (bs : List BudgetDoc) (done : ℕ),
      ProgAfter T done (eventsOfSteps (budgetSteps T bs done))
  | [], _ => progAfter_nil
  | b :: rest, done => by
    have hev : eventsOfSteps (budgetSteps T (b :: rest) done) =
        [.call (budCreateCall b), .progress "Importing budgets" (done + 1) T] ++
          eventsOfSteps (budgetSteps T rest (done + 1)) := by
      rw [budgetSteps, eventsOfSteps_cons]
      rfl
    rw [hev]
    refine progAfter_append (progAfter_block (budCreateCall b) rfl) ?_
    have hcnt : countCreates [Event.call (budCreateCall b),
        .progress "Importing budgets" (done + 1) T] = 1 := by
      simp [countCreates, isCreateEvent, isCreateCall, isBudCreate, budCreateCall]
    rw [hcnt]
    exact progAfter_budgetSteps T rest (done + 1)

theorem progAfter_savingSteps (ids : ℕ → Option ℕ) (T : ℕ) :
    ∀ (ss : List SavingDoc) (k done : ℕ),
      ProgAfter T done (eventsOfSteps (savingSteps ids T ss k done))
  | [], _, _ => progAfter_nil
  | s :: rest, k, done => by
    rcases hupd : savingUpdateId (ids k) (orZero s.current) with - | j
    · have hev : eventsOfSteps (savingSteps ids T (s :: rest) k done) =
          [.call (savCreateCall s), .progress "Importing savings" (done + 1) T] ++
            eventsOfSteps (savingSteps ids T rest (k + 1) (done + 1)) := by
        rw [savingSteps, hupd, eventsOfSteps_append, eventsOfSteps_cons]
        rfl
      rw [hev]
      refine progAfter_append (progAfter_block (savCreateCall s) rfl) ?_
      have hcnt : countCreates [Event.call (savCreateCall s),
          .progress "Importing savings" (done + 1) T] = 1 := by
        simp [countCreates, isCreateEvent, isCreateCall, isSavCreate, savCreateCall]
      rw [hcnt]
      exact progAfter_savingSteps ids T rest (k + 1) (done + 1)
    · have hev : eventsOfSteps (savingSteps ids T (s :: rest) k done) =
          [.call (savCreateCall s), .call (.updateSaving j (orZero s.current)),
            .progress "Importing savings" (done + 1) T] ++
            eventsOfSteps (savingSteps ids T rest (k + 1) (done + 1)) := by
        rw [savingSteps, hupd, eventsOfSteps_append, eventsOfSteps_cons, eventsOfSteps_cons]
        rfl
      rw [hev]
      refine progAfter_append
        (progAfter_block2 (savCreateCall s) (.updateSaving j (orZero s.current)) rfl rfl) ?_
      have hcnt : countCreates [Event.call (savCreateCall s),
          .call (.updateSaving j (orZero s.current)),
          .progress "Importing savings" (done + 1) T] = 1 := by
        simp [countCreates, isCreateEvent, isCreateCall, isSavCreate, savCreateCall,
          isExpCreate, isBudCreate, isSavUpdate]
      rw [hcnt]
      exact progAfter_savingSteps ids T rest (k + 1) (done + 1)

/-- The recreation-phase event trace reports progress after every created
record, counting from `0`, against the fixed total. -/
theorem progAfter_restoreEvents (ids : ℕ → Option ℕ) (p : BackupPayload) :
    ProgAfter (docTotal p) 0 (restoreEvents ids p) := by
  have hev : restoreEvents ids p =
      .progress "Importing expenses" 0 (docTotal p) ::
        (eventsOfSteps (expenseSteps (docTotal p) (docExpenses p) 0) ++
          (.progress "Importing budgets" (docExpenses p).length (docTotal p) ::
            (eventsOfSteps (budgetSteps (docTotal p) (docBudgets p) (docExpenses p).length) ++
              (.progress "Importing savings" ((docExpenses p).length + (docBudgets p).length)
                  (docTotal p) ::
                eventsOfSteps (savingSteps ids (docTotal p) (docSavings p) 0
                  ((docExpenses p).length + (docBudgets p).length)))))) := by
    rw [restoreEvents, restoreSteps, eventsOfSteps_append, eventsOfSteps_append,
      eventsOfSteps_cons, eventsOfSteps_cons, eventsOfSteps_cons]
    simp [stepEvents]
  rw [hev]
  apply progAfter_cons_prog
  refine progAfter_append (progAfter_expenseSteps (docTotal p) (docExpenses p) 0) ?_
  rw [countCreates_expenseSteps, Nat.zero_add]
  apply progAfter_cons_prog
  refine progAfter_append
    (progAfter_budgetSteps (docTotal p) (docBudgets p) (docExpenses p).length) ?_
  rw [countCreates_budgetSteps]
  apply progAfter_cons_prog
  exact progAfter_savingSteps ids (docTotal p) (docSavings p) 0
    ((docExpenses p).length + (docBudgets p).length)

theorem progress_total_expenseSteps (T : ℕ) :
    ∀ (es : List ExpenseDoc) (done : ℕ) (s : String) (cnt t : ℕ),
      Event.progress s cnt t ∈ eventsOfSteps (expenseSteps T es done) → t = T
  | [], _, s, cnt, t => by simp [expenseSteps, eventsOfSteps]
  | e :: rest, done, s, cnt, t => by
    intro h
    rw [expenseSteps, eventsOfSteps_cons, List.mem_append] at h
    rcases h with h | h
    · simp only [stepEvents, List.map_cons, List.map_nil, List.cons_append, List.nil_append,
        List.mem_cons, List.mem_singleton, List.not_mem_nil, or_false] at h
      rcases h with h | h
      · exact Event.noConfusion h
      · injection h
    · exact progress_total_expenseSteps T rest (done + 1) s cnt t h

theorem progress_total_budgetSteps (T : ℕ) :
    ∀ (bs : List BudgetDoc) (done : ℕ) (s : String) (cnt t : ℕ),
      Event.progress s cnt t ∈ eventsOfSteps (budgetSteps T bs done) → t = T
  | [], _, s, cnt, t => by simp [budgetSteps, eventsOfSteps]
  | b :: rest, done, s, cnt, t => by
    intro h
    rw [budgetSteps, eventsOfSteps_cons, List.mem_append] at h
    rcases h with h | h
    · simp only [stepEvents, List.map_cons, List.map_nil, List.cons_append, List.nil_append,
        List.mem_cons, List.mem_singleton, List.not_mem_nil, or_false] at h
      rcases h with h | h
      · exact Event.noConfusion h
      · injection h
    · exact progress_total_budgetSteps T rest (done + 1) s cnt t h

theorem progress_total_savingSteps (ids : ℕ → Option ℕ) (T : ℕ) :
    ∀ (ss : List SavingDoc) (k done : ℕ) (s : String) (cnt t : ℕ),
      Event.progress s cnt t ∈ eventsOfSteps (savingSteps ids T ss k done) → t = T
  | [], _, _, s, cnt, t => by simp [savingSteps, eventsOfSteps]
  | sd :: rest, k, done, s, cnt, t => by
    intro h
    rw [savingSteps, eventsOfSteps_append, List.mem_append] at h
    rcases h with h | h
    · rcases hupd : savingUpdateId (ids k) (orZero sd.current) with - | j <;> rw [hupd] at h <;>
        simp only [eventsOfSteps, stepEvents, List.flatMap_cons, List.flatMap_nil,
          List.map_cons, List.map_nil, List.cons_append, List.nil_append, List.append_nil,
          List.mem_append, List.mem_cons, List.mem_singleton, List.not_mem_nil,
          or_false] at h
      · rcases h with h | h
        · exact Event.noConfusion h
        · injection h
      · rcases h with h | h | h
        · exact Event.noConfusion h
        · exact Event.noConfusion h
        · injection h
    · exact progress_total_savingSteps ids T rest (k + 1) (done + 1) s cnt t h

/-- Every progress event of the import step list carries the fixed total of
the recreation phase. -/
theorem progress_total_importSteps (env : ImportEnv) (p : BackupPayload) :
    ∀ (s : String) (cnt t : ℕ),
      Event.progress s cnt t ∈ eventsOfSteps (importSteps env p) → t = docTotal p := by
  intro s cnt t h
  rw [importSteps, eventsOfSteps_cons, eventsOfSteps_cons, eventsOfSteps_cons,
    eventsOfSteps_cons] at h
  have hcallmap : ∀ (cs : List ApiCall),
      Event.progress s cnt t ∈ cs.map Event.call → False := by
    intro cs hm
    obtain ⟨c, -, hc⟩ := List.mem_map.mp hm
    exact Event.noConfusion hc
  simp only [List.mem_append] at h
  rcases h with h | h | h | h | h
  · simp [stepEvents] at h
  · simp [stepEvents] at h
  · simp [stepEvents] at h
  · simp [stepEvents] at h
  · rw [show eventsOfSteps (restoreSteps env.savingIds p) = restoreEvents env.savingIds p
      from rfl] at h
    have hev : restoreEvents env.savingIds p =
        .progress "Importing expenses" 0 (docTotal p) ::
          (eventsOfSteps (expenseSteps (docTotal p) (docExpenses p) 0) ++
            (.progress "Importing budgets" (docExpenses p).length (docTotal p) ::
              (eventsOfSteps (budgetSteps (docTotal p) (docBudgets p) (docExpenses p).length) ++
                (.progress "Importing savings"
                    ((docExpenses p).length + (docBudgets p).length) (docTotal p) ::
                  eventsOfSteps (savingSteps env.savingIds (docTotal p) (docSavings p) 0
                    ((docExpenses p).length + (docBudgets p).length)))))) := by
      rw [restoreEvents, restoreSteps, eventsOfSteps_append, eventsOfSteps_append,
        eventsOfSteps_cons, eventsOfSteps_cons, eventsOfSteps_cons]
      simp [stepEvents]
    rw [hev] at h
    simp only [List.mem_cons, List.mem_append] at h
    rcases h with h | (h | (h | (h | (h | h))))
    · injection h
    · exact progress_total_expenseSteps (docTotal p) (docExpenses p) 0 s cnt t h
    · injection h
    · exact progress_total_budgetSteps (docTotal p) (docBudgets p) _ s cnt t h
    · injection h
    · exact progress_total_savingSteps env.savingIds (docTotal p) (docSavings p) 0 _ s cnt t h

/-- Every event of a (possibly failed) run is an event of the full step
list. -/
theorem mem_runSteps_events :
    ∀ (sts : List Step) (f : Option ℕ) (e : Event),
      e ∈ (runSteps sts f).1 → e ∈ eventsOfSteps sts
  | [], f, e => by
    rcases f with - | n <;> simp [runSteps]
  | st :: rest, f, e => by
    rcases f with - | n
    · rw [runSteps_none]
      exact id
    · intro h
      rw [eventsOfSteps_cons, List.mem_append]
      by_cases hl : n < st.calls.length
      · simp only [runSteps, if_pos hl] at h
        exact Or.inl (by rw [stepEvents, List.mem_append]; exact Or.inl h)
      · simp only [runSteps, if_neg hl] at h
        rcases List.mem_append.mp h with h' | h'
        · exact Or.inl h'
        · exact Or.inr (mem_runSteps_events rest (some (n - st.calls.length)) e h')

/-- **C8**: A pending document whose three arrays are all empty imports
successfully, deleting every existing record, creating none and reporting
total `0` immediately; in every run each progress event (apart from the
initial "Clearing existing" notice) carries the fixed total — the combined
length of the three arrays, computed once — and along the recreation trace
every created record is followed, before the next creation, by a progress
event for its phase whose count equals the records completed so far. -/
theorem import_progress_spec (p : BackupPayload) (env : ImportEnv) :
    ((docExpenses p = [] ∧ docBudgets p = [] ∧ docSavings p = [] ∧ env.failAt = none) →
      runImport (some p) true env =
        ⟨[.progress "Clearing existing" 0 1, .call .getExpenses, .call .getBudgets,
            .call .getSavings] ++
          env.existingExpenseIds.map (fun i => .call (.deleteExpense i)) ++
          env.existingBudgetIds.map (fun i => .call (.deleteBudget i)) ++
          env.existingSavingIds.map (fun i => .call (.deleteSaving i)) ++
          [.progress "Importing expenses" 0 0, .progress "Importing budgets" 0 0,
            .progress "Importing savings" 0 0],
          true, "Import completed."⟩) ∧
    (∀ (s : String) (cnt t : ℕ),
      Event.progress s cnt t ∈ (runImport (some p) true env).events →
      s = "Clearing existing" ∨
        t = (docExpenses p).length + (docBudgets p).length + (docSavings p).length) ∧
    ProgAfter ((docExpenses p).length + (docBudgets p).length + (docSavings p).length) 0
      (restoreEvents env.savingIds p) := by
  refine ⟨?_, ?_, progAfter_restoreEvents env.savingIds p⟩
  · rintro ⟨h1, h2, h3, h4⟩
    have hrun : runImport (some p) true env =
        ⟨.progress "Clearing existing" 0 1 :: eventsOfSteps (importSteps env p),
          true, "Import completed."⟩ := by
      simp [runImport, h4, runSteps_none]
    rw [hrun]
    have htot : docTotal p = 0 := by simp [docTotal, h1, h2, h3]
    rw [importSteps, restoreSteps, h1, h2, h3, htot]
    simp [eventsOfSteps, stepEvents, expenseSteps, budgetSteps, savingSteps, h1, h2, h3,
      Function.comp_def]
  · intro s cnt t hm
    rw [runImport_events] at hm
    rcases List.mem_cons.mp hm with h | h
    · left
      injection h
    · right
      exact progress_total_importSteps env p s cnt t (mem_runSteps_events _ _ _ h)

/-- Witness for `import_progress_spec`: the all-empty document against the
sample environment. -/
theorem import_progress_spec_witness :
    runImport (some ⟨some [], none, some []⟩) true sampleEnv =
      ⟨[.progress "Clearing existing" 0 1, .call .getExpenses, .call .getBudgets,
          .call .getSavings] ++
        sampleEnv.existingExpenseIds.map (fun i => .call (.deleteExpense i)) ++
        sampleEnv.existingBudgetIds.map (fun i => .call (.deleteBudget i)) ++
        sampleEnv.existingSavingIds.map (fun i => .call (.deleteSaving i)) ++
        [.progress "Importing expenses" 0 0, .progress "Importing budgets" 0 0,
          .progress "Importing savings" 0 0],
        true, "Import completed."⟩ :=
  (import_progress_spec ⟨some [], none, some []⟩ sampleEnv).1 ⟨rfl, rfl, rfl, rfl⟩

/-! ## The dependent saving update (claim C10) -/

/-- The calls issued after the `k`-th (0-based) `createSaving` of a call
sequence, or `none` when there are fewer than `k + 1` saving creations. -/
def afterSavCreate : List ApiCall → ℕ → Option (List ApiCall)
  | [], _ => none
  | c :: rest, k =>
    if isSavCreate c then
      match k with
      | 0 => some rest
      | k' + 1 => afterSavCreate rest k'
    else afterSavCreate rest k

/-- The `createSaving` requests of a call sequence, in order. -/
def savCreatesOf (cs : List ApiCall) : List ApiCall := cs.filter isSavCreate

theorem savCreatesOf_savCalls (ids : ℕ → Option ℕ) :
    ∀ (ss : List SavingDoc) (k : ℕ),
      savCreatesOf (savCalls ids ss k) = ss.map savCreateCall
  | [], _ => rfl
  | s :: rest, k => by
    have hrec := savCreatesOf_savCalls ids rest (k + 1)
    rw [savCreatesOf] at hrec ⊢
    rw [savCalls, List.filter_append, hrec]
    rcases h : savingUpdateId (ids k) (orZero s.current) with - | j <;>
      simp [savBlock, h, List.filter_cons, savCreateCall, isSavCreate, isSavUpdate]

theorem savCreatesOf_restoreCalls (ids : ℕ → Option ℕ) (p : BackupPayload) :
    savCreatesOf (restoreCalls ids p) = (docSavings p).map savCreateCall := by
  rw [restoreCalls_eq, savCreatesOf, List.filter_append, List.filter_append]
  have h1 : ((docExpenses p).map expCreateCall).filter isSavCreate = [] := by
    rw [List.filter_eq_nil_iff]
    intro c hc
    obtain ⟨x, -, rfl⟩ := List.mem_map.mp hc
    simp [expCreateCall, isSavCreate]
  have h2 : ((docBudgets p).map budCreateCall).filter isSavCreate = [] := by
    rw [List.filter_eq_nil_iff]
    intro c hc
    obtain ⟨x, -, rfl⟩ := List.mem_map.mp hc
    simp [budCreateCall, isSavCreate]
  rw [h1, h2]
  simp only [List.nil_append]
  exact savCreatesOf_savCalls ids (docSavings p) 0

theorem afterSavCreate_cons_pos_zero {c : ApiCall} (h : isSavCreate c = true)
    (rest : List ApiCall) : afterSavCreate (c :: rest) 0 = some rest := by
  simp [afterSavCreate, h]

theorem afterSavCreate_cons_pos_succ {c : ApiCall} (h : isSavCreate c = true)
    (rest : List ApiCall) (k : ℕ) :
    afterSavCreate (c :: rest) (k + 1) = afterSavCreate rest k := by
  simp [afterSavCreate, h]

theorem afterSavCreate_cons_neg {c : ApiCall} (h : isSavCreate c = false)
    (rest : List ApiCall) (k : ℕ) :
    afterSavCreate (c :: rest) k = afterSavCreate rest k := by
  simp [afterSavCreate, h]

theorem afterSavCreate_skip :
    ∀ (A B : List ApiCall) (k : ℕ), (∀ c ∈ A, isSavCreate c = false) →
      afterSavCreate (A ++ B) k = afterSavCreate B k
  | [], B, k => fun _ => rfl
  | c :: A, B, k => fun h => by
    rw [List.cons_append, afterSavCreate_cons_neg (h c (List.mem_cons_self c A))]
    exact afterSavCreate_skip A B k fun c' hc' => h c' (List.mem_cons_of_mem _ hc')

theorem afterSavCreate_savCalls (ids : ℕ → Option ℕ) :
    ∀ (ss : List SavingDoc) (k0 k : ℕ) (s : SavingDoc), ss[k]? = some s →
      afterSavCreate (savCalls ids ss k0) k =
        some ((savBlock ids (k0 + k) s).drop 1 ++
          savCalls ids (ss.drop (k + 1)) (k0 + k + 1))
  | [], k0, k, s => by simp
  | s' :: rest, k0, k, s => by
    intro h
    rcases k with - | k'
    · rw [List.getElem?_cons_zero, Option.some.injEq] at h
      have hcons : savCalls ids (s' :: rest) k0 =
          savCreateCall s' :: ((savBlock ids k0 s').drop 1 ++ savCalls ids rest (k0 + 1)) := by
        rw [savCalls, savBlock]
        rcases hupd : savingUpdateId (ids k0) (orZero s'.current) with - | j <;> simp
      rw [hcons, afterSavCreate_cons_pos_zero (by simp [savCreateCall, isSavCreate])]
      rw [← h]
      rfl
    · rw [List.getElem?_cons_succ] at h
      have IH := afterSavCreate_savCalls ids rest (k0 + 1) k' s h
      have harith1 : k0 + 1 + k' = k0 + (k' + 1) := by omega
      rcases hupd : savingUpdateId (ids k0) (orZero s'.current) with - | j
      · have hcons : savCalls ids (s' :: rest) k0 =
            savCreateCall s' :: savCalls ids rest (k0 + 1) := by
          simp [savCalls, savBlock, hupd]
        rw [hcons, afterSavCreate_cons_pos_succ (by simp [savCreateCall, isSavCreate])]
        rw [IH, harith1]
        rfl
      · have hcons : savCalls ids (s' :: rest) k0 =
            savCreateCall s' :: ApiCall.updateSaving j (orZero s'.current) ::
              savCalls ids rest (k0 + 1) := by
          simp [savCalls, savBlock, hupd]
        rw [hcons, afterSavCreate_cons_pos_succ (by simp [savCreateCall, isSavCreate]),
          afterSavCreate_cons_neg (by simp [isSavCreate])]
        rw [IH, harith1]
        rfl

theorem savCalls_head (ids : ℕ → Option ℕ) :
    ∀ (ss : List SavingDoc) (k : ℕ),
      (savCalls ids ss k).head? = none ∨
        ∃ s', (savCalls ids ss k).head? = some (savCreateCall s')
  | [], _ => Or.inl rfl
  | s :: rest, k => Or.inr ⟨s, by rw [savCalls, savBlock]; simp⟩

/-- **C10**: During import-apply every saving is created from its document
entry's name and target only (the creation sequence is exactly the entries'
`createSaving` calls); the dependent `updateSaving` is issued — as the very
next call after the entry's creation — exactly when the entry's `current`
coerces to a number strictly greater than `0` and the creation returned a
truthy id, and it sets that id's current amount; otherwise no update call
follows the creation. -/
theorem savings_restore_spec (p : BackupPayload) (env : ImportEnv) :
    savCreatesOf (restoreCalls env.savingIds p) = (docSavings p).map savCreateCall ∧
    (∀ k s, (docSavings p)[k]? = some s →
      ∃ tail, afterSavCreate (restoreCalls env.savingIds p) k = some tail ∧
        ((0 < orZero s.current ∧ ∃ i, env.savingIds k = some i ∧ i ≠ 0 ∧
            tail.head? = some (.updateSaving i (orZero s.current))) ∨
          (¬(0 < orZero s.current ∧ ∃ i, env.savingIds k = some i ∧ i ≠ 0) ∧
            ∀ id cur, tail.head? ≠ some (.updateSaving id cur)))) := by
  refine ⟨savCreatesOf_restoreCalls env.savingIds p, ?_⟩
  intro k s hk
  have hre : restoreCalls env.savingIds p =
      ((docExpenses p).map expCreateCall ++ (docBudgets p).map budCreateCall) ++
        savCalls env.savingIds (docSavings p) 0 := by
    rw [restoreCalls_eq]
  have hA : ∀ c ∈ (docExpenses p).map expCreateCall ++ (docBudgets p).map budCreateCall,
      isSavCreate c = false := by
    intro c hc
    rcases List.mem_append.mp hc with hc | hc <;>
      obtain ⟨x, -, rfl⟩ := List.mem_map.mp hc <;> rfl
  rw [hre, afterSavCreate_skip _ _ _ hA,
    afterSavCreate_savCalls env.savingIds (docSavings p) 0 k s hk]
  simp only [Nat.zero_add]
  refine ⟨_, rfl, ?_⟩
  rcases hupd : savingUpdateId (env.savingIds k) (orZero s.current) with - | j
  · right
    have hblock : (savBlock env.savingIds k s).drop 1 = [] := by
      rw [savBlock, hupd]
      rfl
    constructor
    · rintro ⟨hpos, i, hi, hne⟩
      rw [hi] at hupd
      simp only [savingUpdateId] at hupd
      rw [if_pos ⟨hpos, hne⟩] at hupd
      exact Option.noConfusion hupd
    · intro id cur
      rw [hblock, List.nil_append]
      rcases savCalls_head env.savingIds ((docSavings p).drop (k + 1)) (k + 1) with hh | ⟨s', hh⟩
      · rw [hh]
        exact fun hcon => Option.noConfusion hcon
      · rw [hh]
        intro hcon
        rw [Option.some.injEq] at hcon
        exact ApiCall.noConfusion (show savCreateCall s' = ApiCall.updateSaving id cur from hcon)
  · left
    have hik : env.savingIds k = some j ∧ j ≠ 0 ∧ 0 < orZero s.current := by
      rcases hk' : env.savingIds k with - | m
      · rw [hk'] at hupd
        simp [savingUpdateId] at hupd
      · rw [hk'] at hupd
        simp only [savingUpdateId] at hupd
        by_cases hcond : 0 < orZero s.current ∧ m ≠ 0
        · rw [if_pos hcond, Option.some.injEq] at hupd
          subst hupd
          exact ⟨rfl, hcond.2, hcond.1⟩
        · rw [if_neg hcond] at hupd
          exact absurd hupd (by simp)
    refine ⟨hik.2.2, j, hik.1, hik.2.1, ?_⟩
    rw [savBlock, hupd]
    rfl

/-- Witness for `savings_restore_spec`: the sample document's second saving
has no `current`, so it is created with no follow-up update. -/
theorem savings_restore_spec_witness :
    ∃ tail, afterSavCreate (restoreCalls sampleEnv.savingIds samplePayload) 1 = some tail ∧
      ((0 < orZero (⟨"Phone", some 150000, none⟩ : SavingDoc).current ∧
          ∃ i, sampleEnv.savingIds 1 = some i ∧ i ≠ 0 ∧
            tail.head? = some (.updateSaving i
              (orZero (⟨"Phone", some 150000, none⟩ : SavingDoc).current))) ∨
        (¬(0 < orZero (⟨"Phone", some 150000, none⟩ : SavingDoc).current ∧
            ∃ i, sampleEnv.savingIds 1 = some i ∧ i ≠ 0) ∧
          ∀ id cur, tail.head? ≠ some (.updateSaving id cur))) :=
  (savings_restore_spec samplePayload sampleEnv).2 1 ⟨"Phone", some 150000, none⟩ rfl

end DM2
